import Mathlib

/-!
# Verification of the route/schema analysis core of the `honojs/vscode` extension

This file gives a shallow embedding, in Lean 4, of the text-analysis core of the
repository: the comment-range scanner (`src/shared/commentRanges.ts`), the route
call matcher and path-expression resolver (the AST-based `routeParser` module),
the regex fallback matcher, the JSDoc `@example` extractor
(`src/features/request/routeParser.ts`), and the path-parameter substitution
module (`pathParams.ts`).  Source text is modelled as `List Char`; the
TypeScript syntax trees produced by the external TypeScript parser are modelled
by the inductive `TsNode`; JavaScript regular-expression matching is compiled by
hand into deterministic scanners (each regex used by the source is free of
ambiguous backtracking, which is argued locally at each definition).
All definitions are executable, and the theorems at the end of the file settle
the specification claims.
-/

set_option maxRecDepth 100000

namespace HonoVscode

/-! ## Character classes used by the source's regular expressions -/

/-- JavaScript `\w`: `[A-Za-z0-9_]`. -/
def isWordChar (c : Char) : Bool :=
  ('A' ≤ c && c ≤ 'Z') || ('a' ≤ c && c ≤ 'z') || ('0' ≤ c && c ≤ '9') || c = '_'

/-- Characters of the class `[\w$]` (identifier continuation in the route regex). -/
def isIdentChar (c : Char) : Bool := isWordChar c || c = '$'

/-- Characters of the class `[A-Za-z_$]` (identifier start in the route regex). -/
def isIdentStartChar (c : Char) : Bool :=
  ('A' ≤ c && c ≤ 'Z') || ('a' ≤ c && c ≤ 'z') || c = '_' || c = '$'

/-- Characters of the class `[A-Za-z_]` (start of a `:name` path parameter). -/
def isAlphaUnd (c : Char) : Bool :=
  ('A' ≤ c && c ≤ 'Z') || ('a' ≤ c && c ≤ 'z') || c = '_'

/-- The backtick quote character. -/
def backtick : Char := Char.ofNat 96

/-- The three JavaScript string-literal quote characters `'`, `"`, backtick. -/
def isQuoteChar (c : Char) : Bool := c = '\'' || c = '"' || c = backtick

/-- JavaScript `\s` (the whitespace class used by `\s*` in the source regexes):
ASCII whitespace, NBSP, Ogham space, the U+2000 block, line/paragraph
separators, narrow NBSP, medium mathematical space, ideographic space, BOM. -/
def isJsSpace (c : Char) : Bool :=
  c = ' ' || ('\t' ≤ c && c ≤ '\x0d') || c = '\u00a0' || c = '\u1680' ||
  ('\u2000' ≤ c && c ≤ '\u200a') || c = '\u2028' || c = '\u2029' || c = '\u202f' ||
  c = '\u205f' || c = '\u3000' || c = '\ufeff'

/-- ASCII lower-casing of one character (`String.prototype.toLowerCase` on the
ASCII method names that appear in the matchers). -/
def asciiLowerChar (c : Char) : Char :=
  if 'A' ≤ c && c ≤ 'Z' then Char.ofNat (c.toNat + 32) else c

/-- ASCII lower-casing of a string. -/
def asciiLower (s : String) : String := String.mk (s.toList.map asciiLowerChar)

/-- `startsWithList pat l` is true when `pat` is an initial segment of `l`
(JavaScript `String.prototype.startsWith`). -/
def startsWithList : List Char → List Char → Bool
  | [], _ => true
  | _ :: _, [] => false
  | p :: ps, c :: cs => p = c && startsWithList ps cs

/-! ## Data model -/

/-- `ParsedRoute` from `routeParser.ts`. -/
structure ParsedRoute where
  method : String
  path : String
  callStartIndex : Nat
deriving DecidableEq, Repr

/-- A half-open `Range` (`{start, end}` with `end` exclusive) from
`commentRanges.ts`; the `end` field is called `stop` because `end` is a Lean
keyword. -/
structure Range where
  start : Nat
  stop : Nat
deriving DecidableEq, Repr

/-! ## Comment-range scanner (`findCommentRanges`, `src/shared/commentRanges.ts`)

The source is a single `while` loop over the text with boolean state flags
`inLine`, `inBlock`, a quote character `inString`, an `escape` flag and the
`start` offset of the comment currently being scanned.  The embedding carries
the same state through a recursion over the remaining characters, with `i` the
absolute offset of the head of the remaining list. -/

/-- The mutable state of the `findCommentRanges` loop. -/
structure ScannerState where
  inLine : Bool
  inBlock : Bool
  inString : Option Char
  escape : Bool
  start : Nat
deriving DecidableEq, Repr

/-- The scanning loop of `findCommentRanges`.  `i` is the offset of the head of
the remaining text; when the text is exhausted, `i` equals the total length and
the final unterminated-comment ranges are flushed exactly as in the source. -/
def fcrLoop : Nat → List Char → Nat → ScannerState → List Range → List Range
  | 0, _, _, _, acc => acc
  | _ + 1, [], i, st, acc =>
    (acc ++ (if st.inLine then [⟨st.start, i⟩] else [])) ++
      (if st.inBlock then [⟨st.start, i⟩] else [])
  | fuel + 1, c :: rest, i, st, acc =>
    if st.inString.isSome then
      if st.escape then fcrLoop fuel rest (i + 1) { st with escape := false } acc
      else if c = '\\' then fcrLoop fuel rest (i + 1) { st with escape := true } acc
      else if st.inString = some c then
        fcrLoop fuel rest (i + 1) { st with inString := none } acc
      else fcrLoop fuel rest (i + 1) st acc
    else if st.inLine then
      if c = '\n' then
        fcrLoop fuel rest (i + 1) { st with inLine := false } (acc ++ [⟨st.start, i⟩])
      else fcrLoop fuel rest (i + 1) st acc
    else if st.inBlock then
      match c, rest with
      | '*', '/' :: rs =>
        fcrLoop fuel rs (i + 2) { st with inBlock := false } (acc ++ [⟨st.start, i + 2⟩])
      | _, _ => fcrLoop fuel rest (i + 1) st acc
    else if isQuoteChar c then fcrLoop fuel rest (i + 1) { st with inString := some c } acc
    else
      match c, rest with
      | '/', '/' :: rs => fcrLoop fuel rs (i + 2) { st with inLine := true, start := i } acc
      | '/', '*' :: rs => fcrLoop fuel rs (i + 2) { st with inBlock := true, start := i } acc
      | _, _ => fcrLoop fuel rest (i + 1) st acc

/-- `findCommentRanges(text)`.  The fuel `text.length + 1` is enough for the
loop to consume the whole text (every step consumes at least one character)
and reach the final flush of unterminated-comment ranges. -/
def findCommentRanges (text : List Char) : List Range :=
  fcrLoop (text.length + 1) text 0 ⟨false, false, none, false, 0⟩ []

/-- `isInRanges(pos, ranges)` / `isIndexInRanges`: point-in-range test against
half-open intervals. -/
def isInRanges (pos : Nat) (ranges : List Range) : Bool :=
  ranges.any fun r => r.start ≤ pos && pos < r.stop

/-! ## The route-call regular expression

`ROUTE_CALL_RE = /(^|[^\w$])([A-Za-z_$][\w$]*)\s*\.\s*(get|post|put|delete|patch|options|head)\s*\(/gm`

The regex is compiled by hand into a matcher.  It is deterministic: after the
prefix alternation, the greedy `[\w$]*` cannot overlap `\s*` or `.`, the seven
method words are pairwise non-prefixes of one another, and `\s*` cannot overlap
a letter or `(`; so no backtracking beyond the `(^|[^\w$])` alternation (which
is tried `^` first, exactly as the engine does) is possible. -/

/-- The seven route method names recognised by the matchers (`validMethods` in
`parseRoutesWithAST`, and the regex alternation, in source order). -/
def METHODS : List String := ["get", "post", "put", "delete", "patch", "options", "head"]

/-- Match one of the seven method words at the head of `s` (regex alternation
order; no word is a prefix of another, so at most one can match). -/
def matchMethodWord (s : List Char) : Option String :=
  METHODS.findSome? fun m => if startsWithList m.toList s then some m else none

/-- Result of matching the part of `ROUTE_CALL_RE` that follows the prefix
group: the consumed length and the method capture (group 3). -/
structure CoreMatch where
  len : Nat
  method : String
deriving DecidableEq, Repr

/-- Match `[A-Za-z_$][\w$]*\s*\.\s*(get|...|head)\s*\(` at the head of `s`. -/
def matchCore (s : List Char) : Option CoreMatch :=
  match s with
  | [] => none
  | c :: rest =>
    if isIdentStartChar c then
      let identTail := rest.takeWhile isIdentChar
      let after1 := rest.drop identTail.length
      let sp1 := after1.takeWhile isJsSpace
      let after2 := after1.drop sp1.length
      match after2 with
      | '.' :: after3 =>
        let sp2 := after3.takeWhile isJsSpace
        let after4 := after3.drop sp2.length
        match matchMethodWord after4 with
        | some m =>
          let after5 := after4.drop m.toList.length
          let sp3 := after5.takeWhile isJsSpace
          let after6 := after5.drop sp3.length
          match after6 with
          | '(' :: _ =>
            some ⟨1 + identTail.length + sp1.length + 1 + sp2.length + m.toList.length +
              sp3.length + 1, m⟩
          | _ => none
        | none => none
      | _ => none
    else none

/-- A match of the whole of `ROUTE_CALL_RE` at one position: the length of the
prefix capture (group 1: `0` for the `^` branch, `1` for a `[^\w$]` character),
the total matched length, and the method capture. -/
structure RouteCallMatch where
  preLen : Nat
  len : Nat
  method : String
deriving DecidableEq, Repr

/-- The one-character-prefix branch of `matchRouteCallAt` (tried when the `^`
branch does not apply or its continuation fails): consume one `[^\w$]`
character, then match the core at the next position. -/
def matchCharBoundary (text : List Char) (p : Nat) : Option RouteCallMatch :=
  match text.drop p with
  | [] => none
  | c :: rest =>
    if !isIdentChar c then
      match matchCore rest with
      | some cm => some ⟨1, cm.len + 1, cm.method⟩
      | none => none
    else none

/-- Attempt `ROUTE_CALL_RE` at position `p` of `text`.  With the `m` flag, the
`^` branch of group 1 applies at offset 0 and after a newline; the engine tries
`^` before the one-character branch. -/
def matchRouteCallAt (text : List Char) (p : Nat) : Option RouteCallMatch :=
  if p = 0 || text[p - 1]? = some '\n' then
    match matchCore (text.drop p) with
    | some cm => some ⟨0, cm.len, cm.method⟩
    | none => matchCharBoundary text p
  else matchCharBoundary text p

/-- `RegExp.prototype.exec` on the global `ROUTE_CALL_RE`: the leftmost match
starting at or after `pos`.  Returns the match index together with the match. -/
def findMatchFrom (text : List Char) : Nat → Nat → Option (Nat × RouteCallMatch)
  | _, 0 => none
  | pos, fuel + 1 =>
    match matchRouteCallAt text pos with
    | some m => some (pos, m)
    | none => if pos < text.length then findMatchFrom text (pos + 1) fuel else none

/-- The path-literal regex `/^\s*(['"`+χ+`])([^'"`+χ+`]+)\1/` applied by
`parseRoutesWithRegex` to the text right after the matched `(` (χ denotes the
backtick).  Deterministic: `[^'"χ]+` cannot consume any quote, so the
backreference check needs no backtracking. -/
def matchPathLiteral (s : List Char) : Option String :=
  let s1 := s.dropWhile isJsSpace
  match s1 with
  | [] => none
  | q :: rest =>
    if isQuoteChar q then
      let body := rest.takeWhile fun c => !isQuoteChar c
      let rest2 := rest.drop body.length
      if body.length > 0 && rest2.head? = some q then some (String.mk body) else none
    else none

/-- The `while ((match = ROUTE_CALL_RE.exec(text)))` loop of
`parseRoutesWithRegex` (part_007).  `pos` is the regex `lastIndex`; each matched
call advances it past the match; a failed path literal `continue`s (the match is
skipped but `lastIndex` stays advanced); the comment filter is applied only when
the computed range list is non-empty, as in the source. -/
def regexLoop (text : List Char) (ranges : List Range) : Nat → Nat → List ParsedRoute
  | _, 0 => []
  | pos, fuel + 1 =>
    match findMatchFrom text pos (text.length + 1 - pos) with
    | none => []
    | some (idx, m) =>
      let callStartIndex := idx + m.preLen
      let rest := regexLoop text ranges (idx + m.len) fuel
      match matchPathLiteral (text.drop (idx + m.len)) with
      | none => rest
      | some routePath =>
        if ranges.length > 0 && isInRanges callStartIndex ranges then rest
        else ⟨asciiLower m.method, routePath, callStartIndex⟩ :: rest

/-- `parseRoutesWithRegex(text, opts)` (part_007, the fallback strategy).
`excludeComments = some false` models `opts.excludeComments === false`; `none`
models an absent option (the default, which excludes comments). -/
def parseRoutesWithRegex (text : List Char) (excludeComments : Option Bool) : List ParsedRoute :=
  let ranges := if excludeComments = some false then [] else findCommentRanges text
  regexLoop text ranges 0 (text.length + 1)

end HonoVscode

namespace HonoVscode

/-! ## TypeScript syntax trees (`parseRoutesWithAST` and the path resolver)

`ts.createSourceFile` is the external TypeScript parser; its output trees are
modelled by `TsNode`.  Each constructor carries its `getStart` offset.  Only the
node kinds inspected by the source are distinguished; every other kind of node
is modelled by `TsNode.node`, a container whose children are visited by
`ts.forEachChild` in syntactic order.  For `templateExpr`, the spans list pairs
each substitution expression with the literal text that follows it; for
`propAccess`, the member-name identifier (which `ts.forEachChild` also visits,
and which can contain no declarations) is kept as a plain string. -/

inductive TsNode where
  | stringLit (start : Nat) (text : String)
  | templateExpr (start : Nat) (head : String) (spans : List (TsNode × String))
  | ident (start : Nat) (name : String)
  | binaryPlus (start : Nat) (lhs rhs : TsNode)
  | varDecl (start : Nat) (binder : TsNode) (init : Option TsNode)
  | callExpr (start : Nat) (callee : TsNode) (args : List TsNode)
  | propAccess (start : Nat) (receiver : TsNode) (name : String)
  | node (start : Nat) (children : List TsNode)
deriving Repr

/-- `node.getStart(sourceFile, false)`. -/
def TsNode.getStart : TsNode → Nat
  | .stringLit s _ => s
  | .templateExpr s _ _ => s
  | .ident s _ => s
  | .binaryPlus s _ _ => s
  | .varDecl s _ _ => s
  | .callExpr s _ _ => s
  | .propAccess s _ _ => s
  | .node s _ => s

/-- `stringifyTemplateExpression`: the head text, then for each span a
placeholder (the identifier's name when the substitution is a bare identifier,
`...` otherwise) followed by the span's trailing literal text. -/
def stringifyTemplateExpression (head : String) (spans : List (TsNode × String)) : String :=
  head ++ String.join (spans.map fun sp =>
    (match sp.1 with
     | .ident _ n => "$\x7b" ++ n ++ "\x7d"
     | _ => "$\x7b...\x7d") ++ sp.2)

/-- `resolveRoutePathExpression`, parametrised by the resolution of a bare
identifier (the tie to `evaluateConstantString` is made below; the
parametrisation keeps the recursion structural). -/
def resolveWith (resolveIdent : String → Option String) : TsNode → Option String
  | .stringLit _ t => some t
  | .templateExpr _ h spans => some (stringifyTemplateExpression h spans)
  | .ident _ name => resolveIdent name
  | .binaryPlus _ l r =>
    match resolveWith resolveIdent l, resolveWith resolveIdent r with
    | some a, some b => some (a ++ b)
    | _, _ => none
  | _ => none

/-! The `visit` closure inside `evaluateConstantString`: a pre-order walk over
the whole source file that stops at the first `VariableDeclaration` whose
binder is the sought identifier and whose initializer resolves; if the
declaration's initializer does not resolve, the walk continues (including into
the declaration's own children), exactly as in the source. -/

/-- The `VariableDeclaration` test inside the walk: a declaration whose
binder is the identifier `varName` and whose initializer is present resolves
via `resolveInit`; any other shape yields nothing. -/
def declInitResolve (resolveInit : TsNode → Option String) (varName : String)
    (b : TsNode) (i : Option TsNode) : Option String :=
  match b, i with
  | .ident _ nm, some ini => if nm = varName then resolveInit ini else none
  | _, _ => none

mutual

/-- The declaration-searching walk, parametrised by initializer resolution. -/
def walkWith (resolveInit : TsNode → Option String) (varName : String) :
    TsNode → Option String
  | .stringLit _ _ => none
  | .templateExpr _ _ spans => walkSpans resolveInit varName spans
  | .ident _ _ => none
  | .binaryPlus _ l r => walkWith resolveInit varName l <|> walkWith resolveInit varName r
  | .varDecl _ b i =>
    declInitResolve resolveInit varName b i
    <|> (walkWith resolveInit varName b <|> walkOpt resolveInit varName i)
  | .callExpr _ f a => walkWith resolveInit varName f <|> walkList resolveInit varName a
  | .propAccess _ r _ => walkWith resolveInit varName r
  | .node _ cs => walkList resolveInit varName cs

/-- Walk of a child list (first hit wins, like the `result !== null` guard). -/
def walkList (resolveInit : TsNode → Option String) (varName : String) :
    List TsNode → Option String
  | [] => none
  | n :: ns => walkWith resolveInit varName n <|> walkList resolveInit varName ns

/-- Walk of an optional child. -/
def walkOpt (resolveInit : TsNode → Option String) (varName : String) :
    Option TsNode → Option String
  | none => none
  | some n => walkWith resolveInit varName n

/-- Walk of template spans (their substitution expressions). -/
def walkSpans (resolveInit : TsNode → Option String) (varName : String) :
    List (TsNode × String) → Option String
  | [] => none
  | sp :: sps => walkWith resolveInit varName sp.1 <|> walkSpans resolveInit varName sps

end

/-- `evaluateConstantString(identifier, sourceFile)`.  The `fuel` bounds the
depth of identifier-to-identifier chasing; the source has no such bound and
diverges (eventually throwing, which the matcher boundary catches) on cyclic
constant definitions, which `fuel = 0` models by returning `none`.  One unit of
fuel is consumed per identifier resolution. -/
def evaluateConstantString : Nat → TsNode → String → Option String
  | 0, _, _ => none
  | fuel + 1, sf, varName =>
    walkWith (fun ini => resolveWith (fun n => evaluateConstantString fuel sf n) ini) varName sf

/-- `resolveRoutePathExpression(node, sourceFile)`. -/
def resolveRoutePathExpression (fuel : Nat) (sf : TsNode) (e : TsNode) : Option String :=
  resolveWith (fun n => evaluateConstantString fuel sf n) e

/-- The body of the `visit` closure of `parseRoutesWithAST` at one node: emit a
route when the node is a call of a property access whose name is one of the
seven methods, the first argument resolves, and the receiver's start offset is
not filtered out by the comment ranges. -/
def emitRoute (resolveArg : TsNode → Option String) (ranges : List Range) :
    TsNode → List ParsedRoute
  | .callExpr _ (.propAccess _ recv mName) (arg :: _) =>
    if mName ∈ METHODS then
      match resolveArg arg with
      | some p =>
        if ranges.length > 0 && isInRanges recv.getStart ranges then []
        else [⟨asciiLower mName, p, recv.getStart⟩]
      | none => []
    else []
  | _ => []

mutual

/-- The recursive `visit` of `parseRoutesWithAST`: emit at the node, then visit
all children (`ts.forEachChild`), in pre-order. -/
def visitWith (emit : TsNode → List ParsedRoute) : TsNode → List ParsedRoute
  | .stringLit s t => emit (.stringLit s t)
  | .templateExpr s h spans => emit (.templateExpr s h spans) ++ visitSpansW emit spans
  | .ident s n => emit (.ident s n)
  | .binaryPlus s l r => emit (.binaryPlus s l r) ++ (visitWith emit l ++ visitWith emit r)
  | .varDecl s b i => emit (.varDecl s b i) ++ (visitWith emit b ++ visitOptW emit i)
  | .callExpr s f a => emit (.callExpr s f a) ++ (visitWith emit f ++ visitListW emit a)
  | .propAccess s r n => emit (.propAccess s r n) ++ visitWith emit r
  | .node s cs => emit (.node s cs) ++ visitListW emit cs

/-- Visit of a child list. -/
def visitListW (emit : TsNode → List ParsedRoute) : List TsNode → List ParsedRoute
  | [] => []
  | n :: ns => visitWith emit n ++ visitListW emit ns

/-- Visit of an optional child. -/
def visitOptW (emit : TsNode → List ParsedRoute) : Option TsNode → List ParsedRoute
  | none => []
  | some n => visitWith emit n

/-- Visit of template spans. -/
def visitSpansW (emit : TsNode → List ParsedRoute) : List (TsNode × String) → List ParsedRoute
  | [] => []
  | sp :: sps => visitWith emit sp.1 ++ visitSpansW emit sps

end

/-- `parseRoutesWithAST(text, opts)`, applied to the tree `sf` that the external
TypeScript parser produced for `text`. -/
def parseRoutesWithAST (fuel : Nat) (sf : TsNode) (text : List Char)
    (excludeComments : Option Bool) : List ParsedRoute :=
  let ranges := if excludeComments = some false then [] else findCommentRanges text
  visitWith (emitRoute (resolveRoutePathExpression fuel sf) ranges) sf

/-! ## The top-level matcher (`parseRoutesFromText`, part_007)

The `try` block wraps the external parse (`ts.createSourceFile`) together with
the AST walk; `astParse` is the outcome of that throwing boundary: `.ok sf`
when the parser produced a tree, `.error ()` when anything in the `try` block
threw.  The `catch` arm and the zero-route case both fall back to the regex
strategy, and no exception escapes. -/

def parseRoutesFromText (astParse : Except Unit TsNode) (fuel : Nat) (text : List Char)
    (excludeComments : Option Bool) : List ParsedRoute :=
  match astParse with
  | .ok sf =>
    let astRoutes := parseRoutesWithAST fuel sf text excludeComments
    if astRoutes.length > 0 then astRoutes else parseRoutesWithRegex text excludeComments
  | .error _ => parseRoutesWithRegex text excludeComments

/-! ## Explicit-cursor variants (for the statelessness claim)

`ROUTE_CALL_RE` is a module-global regex whose `lastIndex` persists between
calls.  The variants below thread that cursor explicitly: the incoming value is
the `lastIndex` left over by any earlier use, and the returned value is the
`lastIndex` after the call.  `parseRoutesWithRegex` assigns
`ROUTE_CALL_RE.lastIndex = 0` before its loop (line 46), so the incoming cursor
is discarded; the loop ends when `exec` fails, and a failed `exec` on a global
regex resets `lastIndex` to 0, so the final cursor is 0. -/

def parseRoutesWithRegexCursor (cursor : Nat) (text : List Char)
    (excludeComments : Option Bool) : List ParsedRoute × Nat :=
  (parseRoutesWithRegex text excludeComments, 0)

/-- `parseRoutesFromText` with the module-global regex cursor threaded through.
The AST strategy never touches the regex, so a successful AST parse leaves the
cursor untouched. -/
def parseRoutesFromTextCursor (astParse : Except Unit TsNode) (fuel : Nat) (text : List Char)
    (excludeComments : Option Bool) (cursor : Nat) : List ParsedRoute × Nat :=
  match astParse with
  | .ok sf =>
    let astRoutes := parseRoutesWithAST fuel sf text excludeComments
    if astRoutes.length > 0 then (astRoutes, cursor)
    else parseRoutesWithRegexCursor cursor text excludeComments
  | .error _ => parseRoutesWithRegexCursor cursor text excludeComments

end HonoVscode

namespace HonoVscode

/-! ## Path-parameter substitution (`pathParams.ts`)

`PATH_PARAM_RE = /:([A-Za-z_]\w*)/g`; `extractPathParamNames` collects the
capture of each match in order, skipping names already seen;
`applyPathParams` then performs, for each name, a global replacement of the
literal text `:name` (the name's characters are word characters, so
`escapeRegex` leaves them unchanged and `new RegExp(':'+name,'g')` is a literal
search) with `encodeURIComponent` of the provided value, the empty string when
no value is provided.  The `encodeURIComponent` output never contains `$`
(dollar is percent-encoded), so the replacement string is free of the
`$`-escape sequences of `String.prototype.replace`. -/

/-- The scanning loop of `matchAll` with `PATH_PARAM_RE`: at `:` followed by
`[A-Za-z_]`, the token is the maximal `[A-Za-z_]\w*` run and scanning resumes
after it; otherwise the engine advances one character.  Fueled to keep the
recursion structural; each step consumes at least one character. -/
def scanTokensF : Nat → List Char → List (List Char)
  | 0, _ => []
  | _ + 1, [] => []
  | fuel + 1, c :: rest =>
    if c = ':' then
      match rest with
      | [] => []
      | c2 :: rs =>
        if isAlphaUnd c2 then
          (c2 :: rs.takeWhile isWordChar) ::
            scanTokensF fuel (rs.drop (rs.takeWhile isWordChar).length)
        else scanTokensF fuel rest
    else scanTokensF fuel rest

/-- All `:name` tokens of a path, in occurrence order, with duplicates. -/
def scanTokens (p : List Char) : List (List Char) := scanTokensF (p.length + 1) p

/-- First-occurrence deduplication (the `seen` set of `extractPathParamNames`). -/
def dedupFirst : List String → List String → List String
  | [], _ => []
  | n :: ns, seen => if n ∈ seen then dedupFirst ns seen else n :: dedupFirst ns (n :: seen)

/-- `extractPathParamNames(routePath)`. -/
def extractPathParamNames (routePath : List Char) : List String :=
  dedupFirst ((scanTokens routePath).map String.mk) []

/-- Characters left unescaped by `encodeURIComponent`:
`A–Z a–z 0–9 - _ . ! ~ * ' ( )`. -/
def isUriUnreserved (c : Char) : Bool :=
  ('A' ≤ c && c ≤ 'Z') || ('a' ≤ c && c ≤ 'z') || ('0' ≤ c && c ≤ '9') ||
  c = '-' || c = '_' || c = '.' || c = '!' || c = '~' || c = '*' || c = '\'' ||
  c = '(' || c = ')'

/-- UTF-8 bytes of a unicode scalar value. -/
def utf8Bytes (n : Nat) : List Nat :=
  if n < 0x80 then [n]
  else if n < 0x800 then [0xc0 + n / 64, 0x80 + n % 64]
  else if n < 0x10000 then [0xe0 + n / 4096, 0x80 + (n / 64) % 64, 0x80 + n % 64]
  else [0xf0 + n / 262144, 0x80 + (n / 4096) % 64, 0x80 + (n / 64) % 64, 0x80 + n % 64]

/-- Upper-case hexadecimal digit. -/
def hexDigit (n : Nat) : Char :=
  if n < 10 then Char.ofNat ('0'.toNat + n) else Char.ofNat ('A'.toNat + n - 10)

/-- Percent-encoding of one character (upper-case hex, as produced by
`encodeURIComponent`). -/
def percentEncodeChar (c : Char) : List Char :=
  (utf8Bytes c.toNat).foldr (fun b acc => '%' :: hexDigit (b / 16) :: hexDigit (b % 16) :: acc) []

/-- `encodeURIComponent(s)`. -/
def encodeURIComponent : List Char → List Char
  | [] => []
  | c :: rest =>
    (if isUriUnreserved c then [c] else percentEncodeChar c) ++ encodeURIComponent rest

/-- One global literal replacement (`String.prototype.replace` with a `g`
regex built from a literal pattern): leftmost matches, non-overlapping,
scanning resumes after each replacement.  Fueled to keep the recursion
structural; the pattern is always nonempty (`:` followed by a name), so each
step consumes at least one character of the subject. -/
def replaceAllSubF : Nat → List Char → List Char → List Char → List Char
  | 0, _, _, l => l
  | _ + 1, _, _, [] => []
  | fuel + 1, pat, repl, c :: rest =>
    if startsWithList pat (c :: rest) then
      repl ++ replaceAllSubF fuel pat repl ((c :: rest).drop pat.length)
    else c :: replaceAllSubF fuel pat repl rest

/-- Global literal replacement of `pat` by `repl` in `l`. -/
def replaceAllSub (pat repl l : List Char) : List Char :=
  replaceAllSubF (l.length + 1) pat repl l

/-- `applyPathParams(routePath, values)`.  The record of provided values is
modelled as a partial map; `values[name] ?? ''` is `(values name).getD ""`. -/
def applyPathParams (routePath : List Char) (values : String → Option String) : List Char :=
  (extractPathParamNames routePath).foldl
    (fun resolved name =>
      replaceAllSub (':' :: name.toList) (encodeURIComponent ((values name).getD "").toList)
        resolved)
    routePath

end HonoVscode

namespace HonoVscode

/-! ## The JSDoc example extractor (`src/features/request/routeParser.ts`)

This module has its own copy of the route-call regex, extended with the path
literal inside the regex itself:
`/(^|[^\w$])([A-Za-z_$][\w$]*)\s*\.\s*(get|...|head)\s*\(\s*(['"χ])([^'"χ]+)\4/gm`
(χ the backtick).  `findFollowingRoute` runs it once on the text sliced from a
given start index. -/

/-- Match the full variant (with the in-regex path literal) after the prefix
group: consumed length, method capture, path capture. -/
def matchCoreFull (s : List Char) : Option (Nat × String × String) :=
  match matchCore s with
  | none => none
  | some cm =>
    let after := s.drop cm.len
    let sp := after.takeWhile isJsSpace
    let after2 := after.drop sp.length
    match after2 with
    | [] => none
    | q :: rest =>
      if isQuoteChar q then
        let body := rest.takeWhile fun c => !isQuoteChar c
        let rest2 := rest.drop body.length
        if body.length > 0 && rest2.head? = some q then
          some (cm.len + sp.length + 1 + body.length + 1, cm.method, String.mk body)
        else none
      else none

/-- The full route-call regex at position `p`: prefix-capture length, total
length, method capture, path capture. -/
def matchFullRouteCallAt (text : List Char) (p : Nat) :
    Option (Nat × Nat × String × String) :=
  let t := text.drop p
  let caret :=
    if p = 0 || text[p - 1]? = some '\n' then
      (matchCoreFull t).map fun r => (0, r.1, r.2.1, r.2.2)
    else none
  match caret with
  | some r => some r
  | none =>
    match t with
    | [] => none
    | c :: rest =>
      if !isIdentChar c then (matchCoreFull rest).map fun r => (1, r.1 + 1, r.2.1, r.2.2)
      else none

/-- Leftmost match of the full route-call regex from a position. -/
def findFullMatchFrom (text : List Char) : Nat → Nat → Option (String × String)
  | _, 0 => none
  | pos, fuel + 1 =>
    match matchFullRouteCallAt text pos with
    | some r => some (r.2.2.1, r.2.2.2)
    | none => if pos < text.length then findFullMatchFrom text (pos + 1) fuel else none

/-- `findFollowingRoute(text, startIndex)`: the first route-call match of the
full regex in `text.slice(startIndex)`, as `(method.toLowerCase(), path)`. -/
def findFollowingRoute (text : List Char) (startIndex : Nat) : Option (String × String) :=
  let searchText := text.drop startIndex
  match findFullMatchFrom searchText 0 (searchText.length + 1) with
  | some (m, path) => some (asciiLower m, path)
  | none => none

/-- `ParsedJSDocExample`. -/
structure ParsedJSDocExample where
  method : String
  jsonBody : String
  methodStartIndex : Nat
  routePath : String
  routeMethod : String
deriving DecidableEq, Repr

/-- An example parsed inside one JSDoc block (before route association). -/
structure ParsedExampleInJSDoc where
  method : String
  jsonBody : String
  methodStartIndex : Nat
deriving DecidableEq, Repr

/-- The upper-case HTTP method keywords recognised in `@example` lines. -/
def HTTP_METHODS : List String :=
  ["GET", "POST", "PUT", "DELETE", "PATCH", "OPTIONS", "HEAD"]

/-- `String.prototype.split('\n')`. -/
def splitLines : List Char → List (List Char)
  | [] => [[]]
  | '\n' :: rest => [] :: splitLines rest
  | c :: rest =>
    match splitLines rest with
    | l :: ls => (c :: l) :: ls
    | [] => [[c]]

/-- `stripJSDocLinePrefix(line)`: drop the leading `\s*`, then at most one `*`,
then at most one whitespace character (the regex `^\s*\*?\s?`). -/
def stripJSDocLineMarker (line : List Char) : List Char :=
  match line.dropWhile isJsSpace with
  | '*' :: rest =>
    (match rest with
     | c :: rs => if isJsSpace c then rs else rest
     | [] => [])
  | l1 => l1

/-- JavaScript `String.prototype.trim`. -/
def jsTrim (l : List Char) : List Char :=
  ((l.dropWhile isJsSpace).reverse.dropWhile isJsSpace).reverse

/-- `String.prototype.indexOf` for a substring. -/
def indexOfSub (pat : List Char) : List Char → Option Nat
  | [] => if startsWithList pat [] then some 0 else none
  | c :: rest =>
    if startsWithList pat (c :: rest) then some 0
    else (indexOfSub pat rest).map (· + 1)

/-- `findHttpMethodInLine(trimmedLine)`: the first of the seven upper-case
method words that starts the line and is followed by `\s*\{` or by `\s+`, with
the index of the first `{` in the whole trimmed line; a method whose line has
no `{` falls through to the next candidate word. -/
def findHttpMethodInLine (trimmedLine : List Char) : Option (String × Nat) :=
  HTTP_METHODS.findSome? fun m =>
    if startsWithList m.toList trimmedLine then
      let afterMethod := trimmedLine.drop m.toList.length
      if (afterMethod.dropWhile isJsSpace).head? = some '\x7b' ||
          (match afterMethod with
           | c :: _ => isJsSpace c
           | [] => false) then
        match trimmedLine.findIdx? (fun c => c = '\x7b') with
        | some j => some (m, j)
        | none => none
      else none
    else none

/-- Result of `extractJsonBody`. -/
structure JsonExtract where
  jsonBody : String
  consumedLines : Nat
  consumedChars : Nat
deriving DecidableEq, Repr

/-- Sum of `lines[j].length + 1` for `j` from `lo` to `hi` (the
`consumedChars` computation). -/
def sumLineLens (lines : List (List Char)) (lo hi : Nat) : Nat :=
  ((lines.drop lo).take (hi + 1 - lo)).foldl (fun a l => a + (l.length + 1)) 0

/-- The character loop of `extractJsonBody` over one logical line: `{` starts
and deepens, `}` shallows (and is always appended), other characters are
appended only once started; extraction completes when the balance returns to
zero after an opening brace. -/
def jsonCharLoop : List Char → List Char → Int → Bool → (List Char × Int × Bool) ⊕ List Char
  | [], js, br, stt => Sum.inl (js, br, stt)
  | c :: rest, js, br, stt =>
    if c = '\x7b' then jsonCharLoop rest (js ++ [c]) (br + 1) true
    else if c = '\x7d' then
      if br - 1 = 0 && stt then Sum.inr (js ++ [c])
      else jsonCharLoop rest (js ++ [c]) (br - 1) stt
    else if stt then jsonCharLoop rest (js ++ [c]) br stt
    else jsonCharLoop rest js br stt

/-- The line loop of `extractJsonBody`: process the current logical line;
append a newline between lines while the body is open; stop (yielding nothing)
at a new `@`-tag line or a bare `*/` line after the first line, or when the
lines run out before the braces balance. -/
def jsonLineLoop (lines : List (List Char)) (startLineIndex : Nat) :
    Nat → List Char → List Char → Int → Bool → Nat → Option JsonExtract
  | _, _, _, _, _, 0 => none
  | lineIdx, content, js, br, stt, fuel + 1 =>
    match jsonCharLoop content js br stt with
    | Sum.inr jsonStr =>
      some ⟨String.mk (jsTrim jsonStr), lineIdx - startLineIndex + 1,
        sumLineLens lines startLineIndex lineIdx⟩
    | Sum.inl (js1, br1, stt1) =>
      let js2 := if stt1 && br1 > 0 then js1 ++ ['\n'] else js1
      if lineIdx > startLineIndex &&
          (startsWithList ['@'] (stripJSDocLineMarker (lines.getD lineIdx [])) ||
            stripJSDocLineMarker (lines.getD lineIdx []) = ['*', '/']) then none
      else if lineIdx + 1 < lines.length then
        jsonLineLoop lines startLineIndex (lineIdx + 1)
          (stripJSDocLineMarker (lines.getD (lineIdx + 1) [])) js2 br1 stt1 fuel
      else none

/-- `extractJsonBody(lines, startLineIndex, startTrimmedLine, jsonStartInTrimmed)`. -/
def extractJsonBody (lines : List (List Char)) (startLineIndex : Nat)
    (startTrimmedLine : List Char) (jsonStartInTrimmed : Nat) : Option JsonExtract :=
  if startLineIndex < lines.length then
    jsonLineLoop lines startLineIndex startLineIndex
      (startTrimmedLine.drop jsonStartInTrimmed) [] 0 false (lines.length + 1)
  else none

/-- The `while` loop of `parseExamplesFromJSDoc`: tracks the current line
index, the character offset of the current line inside the JSDoc block, and
the `inExample` flag; `@example` lines set the flag, other `@`-tag lines clear
it, and method lines inside an example emit one parsed example and skip the
consumed lines. -/
def pexLoop (jsdocStartIndex : Nat) (lines : List (List Char)) :
    Nat → Nat → Bool → Nat → List ParsedExampleInJSDoc
  | _, _, _, 0 => []
  | i, offset, inExample, fuel + 1 =>
    if i < lines.length then
      let line := lines.getD i []
      let trimmed := stripJSDocLineMarker line
      if startsWithList "@example".toList trimmed then
        pexLoop jsdocStartIndex lines (i + 1) (offset + line.length + 1) true fuel
      else if startsWithList ['@'] trimmed then
        pexLoop jsdocStartIndex lines (i + 1) (offset + line.length + 1) false fuel
      else if inExample then
        match findHttpMethodInLine trimmed with
        | some mm =>
          match extractJsonBody lines i trimmed mm.2 with
          | some jr =>
            ⟨asciiLower mm.1, jr.jsonBody,
              jsdocStartIndex + offset + (indexOfSub mm.1.toList line).getD 0⟩ ::
              pexLoop jsdocStartIndex lines (i + jr.consumedLines) (offset + jr.consumedChars)
                inExample fuel
          | none => pexLoop jsdocStartIndex lines (i + 1) (offset + line.length + 1) inExample fuel
        | none => pexLoop jsdocStartIndex lines (i + 1) (offset + line.length + 1) inExample fuel
      else pexLoop jsdocStartIndex lines (i + 1) (offset + line.length + 1) inExample fuel
    else []

/-- `parseExamplesFromJSDoc(jsdocContent, jsdocStartIndex)`. -/
def parseExamplesFromJSDoc (jsdocContent : List Char) (jsdocStartIndex : Nat) :
    List ParsedExampleInJSDoc :=
  let lines := splitLines jsdocContent
  pexLoop jsdocStartIndex lines 0 0 false (lines.length + 1)

/-- First `*/` pair in the remaining text (`j` is the absolute offset of its
`*`), for the non-greedy tail of the JSDoc block regex. -/
def findJsDocBlockEnd : List Char → Nat → Option Nat
  | '*' :: '/' :: _, j => some j
  | _ :: rest, j => findJsDocBlockEnd rest (j + 1)
  | [], _ => none

/-- The scan of `/\/\*\*[\s\S]*?\*\//g`: at each `/**`, the non-greedy tail
matches up to the first following `*/`; the scan resumes after the match.  If
the tail never closes, no match can start later either (a later `/**` would
need a later `*/`), so the scan ends. -/
def findJsDocBlocksF : Nat → List Char → Nat → List (Nat × Nat)
  | 0, _, _ => []
  | fuel + 1, l, pos =>
    if startsWithList ['/', '*', '*'] l then
      match findJsDocBlockEnd (l.drop 3) (pos + 3) with
      | some j => (pos, j + 2) :: findJsDocBlocksF fuel (l.drop (j + 2 - pos)) (j + 2)
      | none => []
    else
      match l with
      | [] => []
      | _ :: rest => findJsDocBlocksF fuel rest (pos + 1)

/-- All JSDoc block matches `(start, end)` (end exclusive) of the text. -/
def findJsDocBlocks (text : List Char) : List (Nat × Nat) :=
  findJsDocBlocksF (text.length + 1) text 0

/-- `text.slice(a, b)`. -/
def sliceChars (text : List Char) (a b : Nat) : List Char := (text.drop a).take (b - a)

/-- The body of the per-block iteration of `parseJSDocExamplesFromText`: the
examples of one JSDoc block, associated with the first route-call match
anywhere after the block and filtered by method equality. -/
def jsdocBlockExamples (text : List Char) (b : Nat × Nat) : List ParsedJSDocExample :=
  let examples := parseExamplesFromJSDoc (sliceChars text b.1 b.2) b.1
  if examples.length = 0 then []
  else
    match findFollowingRoute text b.2 with
    | none => []
    | some (rm, rp) =>
      examples.filterMap fun ex =>
        if ex.method = rm then some ⟨ex.method, ex.jsonBody, ex.methodStartIndex, rp, rm⟩
        else none

/-- `parseJSDocExamplesFromText(text)`: for each JSDoc block with at least one
example, find the first route-call match anywhere after the block, and keep the
examples whose method equals that route's method. -/
def parseJSDocExamplesFromText (text : List Char) : List ParsedJSDocExample :=
  (findJsDocBlocks text).foldr (fun b acc => jsdocBlockExamples text b ++ acc) []

end HonoVscode

namespace HonoVscode

/-! ## Specification-side auxiliary definitions

`preorder` lists the nodes of a tree in the order `ts.forEachChild`-driven
pre-order walks visit them; it is the reference against which the walking
functions of the source are characterised. -/

mutual

/-- Pre-order listing of a tree's nodes (node first, then children in
syntactic order). -/
def preorder : TsNode → List TsNode
  | .stringLit s t => [.stringLit s t]
  | .templateExpr s h spans => .templateExpr s h spans :: preorderSpans spans
  | .ident s n => [.ident s n]
  | .binaryPlus s l r => .binaryPlus s l r :: (preorder l ++ preorder r)
  | .varDecl s b i => .varDecl s b i :: (preorder b ++ preorderOpt i)
  | .callExpr s f a => .callExpr s f a :: (preorder f ++ preorderList a)
  | .propAccess s r n => .propAccess s r n :: preorder r
  | .node s cs => .node s cs :: preorderList cs

/-- Pre-order listing of a node list. -/
def preorderList : List TsNode → List TsNode
  | [] => []
  | n :: ns => preorder n ++ preorderList ns

/-- Pre-order listing of an optional node. -/
def preorderOpt : Option TsNode → List TsNode
  | none => []
  | some n => preorder n

/-- Pre-order listing of template spans. -/
def preorderSpans : List (TsNode × String) → List TsNode
  | [] => []
  | sp :: sps => preorder sp.1 ++ preorderSpans sps

end

/-- The declaration test of the `visit` closure in `evaluateConstantString`,
as a function on a single node: a `VariableDeclaration` whose binder is the
identifier `varName` and whose initializer resolves, yields the resolved
string. -/
def declWith (resolveInit : TsNode → Option String) (varName : String) :
    TsNode → Option String
  | .varDecl _ b i => declInitResolve resolveInit varName b i
  | _ => none

/-! ## Claim C2: try/fallback policy of `parseRoutesFromText` -/

/-- C2.  For every input text, the matcher first attempts the structural
strategy; whenever the structural strategy throws (`astParse = .error ()`) or
yields zero routes, the matcher's result equals the result of the regex-based
strategy on the same text and options.  (No exception propagates: the matcher
is a total function for every outcome of the structural strategy.) -/
theorem parseRoutesFromText_falls_back_to_regex
    (astParse : Except Unit TsNode) (fuel : Nat) (text : List Char) (opts : Option Bool)
    (h : astParse = Except.error () ∨
      ∃ sf, astParse = Except.ok sf ∧ parseRoutesWithAST fuel sf text opts = []) :
    parseRoutesFromText astParse fuel text opts = parseRoutesWithRegex text opts := by
  rcases h with h | ⟨sf, rfl, hsf⟩
  · subst h; rfl
  · simp [parseRoutesFromText, hsf]

theorem parseRoutesFromText_falls_back_to_regex_witness :
    parseRoutesFromText (Except.ok (TsNode.node 0 [])) 1 "app.get('/x', h)".toList none =
      parseRoutesWithRegex "app.get('/x', h)".toList none :=
  parseRoutesFromText_falls_back_to_regex (Except.ok (TsNode.node 0 [])) 1
    "app.get('/x', h)".toList none (Or.inr ⟨TsNode.node 0 [], rfl, by decide⟩)

/-! ## Claim C8: the matcher is deterministic across invocations

The only mutable state shared between invocations is the module-global
`ROUTE_CALL_RE.lastIndex` cursor; `parseRoutesFromTextCursor` threads it
explicitly.  The route list returned is independent of the incoming cursor —
in particular, a second invocation on identical input (whose incoming cursor is
whatever the first invocation left behind) returns the identical list. -/

/-- C8.  For every structural-strategy outcome, text and options, the route
list produced is the same for any two incoming values of the module-global
regex cursor; hence calling the matcher twice in succession on identical input
yields identical `ParsedRoute` lists. -/
theorem parseRoutesFromText_cursor_independent
    (astParse : Except Unit TsNode) (fuel : Nat) (text : List Char) (opts : Option Bool)
    (c₁ c₂ : Nat) :
    (parseRoutesFromTextCursor astParse fuel text opts c₁).1 =
      (parseRoutesFromTextCursor astParse fuel text opts c₂).1 := by
  rcases astParse with _ | sf
  · rfl
  · simp only [parseRoutesFromTextCursor]
    split <;> rfl

end HonoVscode
namespace HonoVscode

/-! ## Claim C4: comment filtering -/

theorem isInRanges_nil (pos : Nat) : isInRanges pos [] = false := rfl

/-- The regex loop with comment ranges `R` equals the unfiltered loop followed
by the point-in-range filter. -/
theorem regexLoop_comment_filter (text : List Char) (R : List Range) :
    ∀ fuel pos, regexLoop text R pos fuel =
      (regexLoop text [] pos fuel).filter fun r => !isInRanges r.callStartIndex R := by
  intro fuel
  induction fuel with
  | zero => intro pos; rfl
  | succ n ih =>
    intro pos
    simp only [regexLoop]
    cases h : findMatchFrom text pos (text.length + 1 - pos) with
    | none => rfl
    | some pm =>
      obtain ⟨idx, m⟩ := pm
      cases hp : matchPathLiteral (text.drop (idx + m.len)) with
      | none => simp only [hp]; exact ih (idx + m.len)
      | some path =>
        simp only [hp]
        cases hIn : isInRanges (idx + m.preLen) R with
        | true =>
          have hne : R ≠ [] := by
            intro hnil
            rw [hnil] at hIn
            exact Bool.noConfusion ((isInRanges_nil (idx + m.preLen)) ▸ hIn)
          have hpos : 0 < R.length := List.length_pos.mpr hne
          rw [ih (idx + m.len)]
          simp [hpos, List.filter_cons, hIn]
        | false =>
          rw [ih (idx + m.len)]
          simp [List.filter_cons, hIn]

mutual

/-- Filtering commutes with the AST visit. -/
theorem visitWith_filter (emit : TsNode → List ParsedRoute) (p : ParsedRoute → Bool) :
    ∀ n, visitWith (fun k => (emit k).filter p) n = (visitWith emit n).filter p
  | .stringLit _ _ => by simp [visitWith]
  | .templateExpr s h spans => by
    simp [visitWith, List.filter_append, visitSpansW_filter emit p spans]
  | .ident _ _ => by simp [visitWith]
  | .binaryPlus s l r => by
    simp [visitWith, List.filter_append, visitWith_filter emit p l, visitWith_filter emit p r]
  | .varDecl s b i => by
    simp [visitWith, List.filter_append, visitWith_filter emit p b, visitOptW_filter emit p i]
  | .callExpr s f a => by
    simp [visitWith, List.filter_append, visitWith_filter emit p f, visitListW_filter emit p a]
  | .propAccess s r n => by
    simp [visitWith, List.filter_append, visitWith_filter emit p r]
  | .node s cs => by
    simp [visitWith, List.filter_append, visitListW_filter emit p cs]

theorem visitListW_filter (emit : TsNode → List ParsedRoute) (p : ParsedRoute → Bool) :
    ∀ ns, visitListW (fun k => (emit k).filter p) ns = (visitListW emit ns).filter p
  | [] => by simp [visitListW]
  | n :: ns => by
    simp [visitListW, List.filter_append, visitWith_filter emit p n, visitListW_filter emit p ns]

theorem visitOptW_filter (emit : TsNode → List ParsedRoute) (p : ParsedRoute → Bool) :
    ∀ i, visitOptW (fun k => (emit k).filter p) i = (visitOptW emit i).filter p
  | none => by simp [visitOptW]
  | some n => by simp [visitOptW, visitWith_filter emit p n]

theorem visitSpansW_filter (emit : TsNode → List ParsedRoute) (p : ParsedRoute → Bool) :
    ∀ sps, visitSpansW (fun k => (emit k).filter p) sps = (visitSpansW emit sps).filter p
  | [] => by simp [visitSpansW]
  | sp :: sps => by
    simp [visitSpansW, List.filter_append, visitWith_filter emit p sp.1,
      visitSpansW_filter emit p sps]

end

/-- One emission step with comment ranges `R` equals the unfiltered emission
followed by the point-in-range filter. -/
theorem emitRoute_ranges (res : TsNode → Option String) (R : List Range) (n : TsNode) :
    emitRoute res R n = (emitRoute res [] n).filter fun r => !isInRanges r.callStartIndex R := by
  unfold emitRoute
  split
  case h_1 s recv mName arg rest =>
    by_cases hm : mName ∈ METHODS
    · simp only [if_pos hm]
      cases hr : res arg with
      | none => rfl
      | some p =>
        cases hIn : isInRanges recv.getStart R with
        | true =>
          have hne : R ≠ [] := by
            intro hnil
            rw [hnil] at hIn
            exact Bool.noConfusion ((isInRanges_nil recv.getStart) ▸ hIn)
          have hpos : 0 < R.length := List.length_pos.mpr hne
          simp [hpos, List.filter_cons, hIn]
        | false =>
          simp [List.filter_cons, hIn]
    · simp [if_neg hm]
  case h_2 => rfl

/-- C4.  A route call whose start offset lies inside a comment range is
excluded from the output when `excludeComments` is true (or left at its
default), and included when `excludeComments` is false: for both strategies,
the output with comment exclusion is exactly the output without exclusion
filtered by the point-in-range test against the scanner's ranges. -/
theorem routes_comment_exclusion (text : List Char) :
    (parseRoutesWithRegex text none = parseRoutesWithRegex text (some true) ∧
      parseRoutesWithRegex text (some true) =
        (parseRoutesWithRegex text (some false)).filter
          (fun r => !isInRanges r.callStartIndex (findCommentRanges text))) ∧
    ∀ fuel sf,
      parseRoutesWithAST fuel sf text none = parseRoutesWithAST fuel sf text (some true) ∧
      parseRoutesWithAST fuel sf text (some true) =
        (parseRoutesWithAST fuel sf text (some false)).filter
          (fun r => !isInRanges r.callStartIndex (findCommentRanges text)) := by
  refine ⟨⟨rfl, ?_⟩, fun fuel sf => ⟨rfl, ?_⟩⟩
  · show regexLoop text (findCommentRanges text) 0 (text.length + 1) =
      (regexLoop text [] 0 (text.length + 1)).filter _
    exact regexLoop_comment_filter text (findCommentRanges text) (text.length + 1) 0
  · show visitWith (emitRoute (resolveRoutePathExpression fuel sf) (findCommentRanges text)) sf =
      (visitWith (emitRoute (resolveRoutePathExpression fuel sf) []) sf).filter _
    have he : (emitRoute (resolveRoutePathExpression fuel sf) (findCommentRanges text)) =
        fun k => (emitRoute (resolveRoutePathExpression fuel sf) [] k).filter
          (fun r => !isInRanges r.callStartIndex (findCommentRanges text)) :=
      funext fun k => emitRoute_ranges (resolveRoutePathExpression fuel sf)
        (findCommentRanges text) k
    rw [he]
    exact visitWith_filter (emitRoute (resolveRoutePathExpression fuel sf) [])
      (fun r => !isInRanges r.callStartIndex (findCommentRanges text)) sf

end HonoVscode
namespace HonoVscode

/-! ## Claim C10: substitution is the identity on placeholder-free paths -/

/-- The claim's hypothesis, from the spec's words: the path contains a
`:identifier` token, i.e. a `:` immediately followed by `[A-Za-z_]` (which is
exactly where `PATH_PARAM_RE` can match). -/
def pathHasParamToken : List Char → Bool
  | [] => false
  | c :: rest =>
    (c = ':' && (match rest.head? with
      | some c2 => isAlphaUnd c2
      | none => false)) || pathHasParamToken rest

theorem scanTokensF_no_token :
    ∀ fuel p, pathHasParamToken p = false → scanTokensF fuel p = [] := by
  intro fuel
  induction fuel with
  | zero => intro p _; rfl
  | succ n ih =>
    intro p hp
    cases p with
    | nil => rfl
    | cons c rest =>
      rw [pathHasParamToken, Bool.or_eq_false_iff] at hp
      by_cases hc : c = ':'
      · subst hc
        cases rest with
        | nil => simp [scanTokensF]
        | cons c2 rs =>
          have h2 : isAlphaUnd c2 = false := by simpa using hp.1
          simp only [scanTokensF, if_pos rfl, h2, if_neg]
          simp only [Bool.false_eq_true, if_false]
          exact ih (c2 :: rs) hp.2
      · simp only [scanTokensF, if_neg hc]
        exact ih rest hp.2

/-- C10.  On a path with no `:identifier` token, no parameter names are
extracted and `applyPathParams` returns the path unchanged for every value
map. -/
theorem applyPathParams_no_placeholder_identity (path : List Char)
    (h : pathHasParamToken path = false) :
    extractPathParamNames path = [] ∧
      ∀ values : String → Option String, applyPathParams path values = path := by
  have hscan : scanTokens path = [] := scanTokensF_no_token (path.length + 1) path h
  have hext : extractPathParamNames path = [] := by
    simp [extractPathParamNames, hscan, dedupFirst]
  exact ⟨hext, fun values => by simp [applyPathParams, hext]⟩

theorem applyPathParams_no_placeholder_identity_witness :
    extractPathParamNames "/users/list".toList = [] ∧
      applyPathParams "/users/list".toList (fun _ => some "v") = "/users/list".toList :=
  ⟨(applyPathParams_no_placeholder_identity "/users/list".toList (by decide)).1,
    (applyPathParams_no_placeholder_identity "/users/list".toList (by decide)).2
      (fun _ => some "v")⟩

end HonoVscode
namespace HonoVscode

/-! ## Claim C9: comment ranges are mutually non-overlapping

The invariant carried through the scanner loop: the accumulated ranges are
ordered (each ends no later than the next starts) and nonempty; every
accumulated range ends no later than the earliest offset any future range can
start (the `start` of the comment being scanned, or the current position); a
comment in progress started at least two characters back; and the line/block
states are mutually exclusive. -/

/-- The earliest offset at which a future range can start. -/
def fcrBound (i : Nat) (st : ScannerState) : Nat :=
  if st.inLine || st.inBlock then st.start else i

/-- The loop invariant of `fcrLoop`. -/
structure FcrInv (i : Nat) (st : ScannerState) (acc : List Range) : Prop where
  pw : acc.Pairwise (fun a b => a.stop ≤ b.start)
  widths : ∀ r ∈ acc, r.start < r.stop
  bound : ∀ r ∈ acc, r.stop ≤ fcrBound i st
  lineStart : st.inLine = true → st.start + 2 ≤ i
  blockStart : st.inBlock = true → st.start + 2 ≤ i
  excl : ¬(st.inLine = true ∧ st.inBlock = true)

theorem pairwise_append_single (acc : List Range) (r : Range)
    (h1 : acc.Pairwise (fun a b => a.stop ≤ b.start))
    (h2 : ∀ a ∈ acc, a.stop ≤ r.start) :
    (acc ++ [r]).Pairwise (fun a b => a.stop ≤ b.start) := by
  rw [List.pairwise_append]
  exact ⟨h1, List.pairwise_singleton _ _, fun a ha b hb => by
    rcases List.mem_singleton.mp hb with rfl
    exact h2 a ha⟩


/-- Invariant preservation for steps that advance one character and leave the
line/block flags and the comment start unchanged. -/
theorem FcrInv.stepKeep {i : Nat} {st : ScannerState} {acc : List Range}
    (h : FcrInv i st acc) (st' : ScannerState)
    (hL : st'.inLine = st.inLine) (hB : st'.inBlock = st.inBlock)
    (hS : st'.start = st.start) : FcrInv (i + 1) st' acc := by
  refine ⟨h.pw, h.widths, ?_, ?_, ?_, ?_⟩
  · intro r hr
    have hthis := h.bound r hr
    unfold fcrBound at hthis ⊢
    rw [hL, hB, hS]
    by_cases hc : (st.inLine || st.inBlock) = true
    · rw [if_pos hc]
      rwa [if_pos hc] at hthis
    · rw [if_neg hc]
      rw [if_neg hc] at hthis
      omega
  · rw [hL, hS]; intro hh; exact (h.lineStart hh).trans (by omega)
  · rw [hB, hS]; intro hh; exact (h.blockStart hh).trans (by omega)
  · rw [hL, hB]; exact h.excl

/-- Invariant after closing a comment: the completed range `r` is appended,
the flags are cleared, and the position advances to `r.stop`. -/
theorem FcrInv.close {i : Nat} {st : ScannerState} {acc : List Range}
    (h : FcrInv i st acc) (st' : ScannerState) (r : Range) (j : Nat)
    (hbd : ∀ a ∈ acc, a.stop ≤ st.start)
    (hrs : r.start = st.start) (hw : r.start < r.stop) (hre : r.stop ≤ j)
    (hsj : st.start ≤ j)
    (hL : st'.inLine = false) (hB : st'.inBlock = false) :
    FcrInv j st' (acc ++ [r]) := by
  refine ⟨pairwise_append_single acc r h.pw (fun a ha => (hbd a ha).trans (by omega)), ?_, ?_,
    ?_, ?_, ?_⟩
  · intro x hx
    rcases List.mem_append.mp hx with hx | hx
    · exact h.widths x hx
    · rcases List.mem_singleton.mp hx with rfl
      exact hw
  · intro x hx
    unfold fcrBound
    rw [hL, hB]
    simp only [Bool.or_self]
    rw [if_neg (by simp)]
    rcases List.mem_append.mp hx with hx | hx
    · exact (hbd x hx).trans (by omega)
    · rcases List.mem_singleton.mp hx with rfl
      exact hre
  · rw [hL]; intro hh; exact absurd hh (by simp)
  · rw [hB]; intro hh; exact absurd hh (by simp)
  · rw [hL]; intro hh; exact absurd hh.1 (by simp)

/-- Invariant after opening a comment at position `i` (the next two characters
are consumed). -/
theorem FcrInv.openComment {i : Nat} {st : ScannerState} {acc : List Range}
    (h : FcrInv i st acc) (st' : ScannerState)
    (hl : st.inLine = false) (hb : st.inBlock = false)
    (hS : st'.start = i) (hX : ¬(st'.inLine = true ∧ st'.inBlock = true)) :
    FcrInv (i + 2) st' acc := by
  have hbd : ∀ a ∈ acc, a.stop ≤ i := by
    intro a ha
    have := h.bound a ha
    unfold fcrBound at this
    rwa [hl, hb, Bool.or_self, if_neg (by simp)] at this
  refine ⟨h.pw, h.widths, ?_, ?_, ?_, hX⟩
  · intro a ha
    unfold fcrBound
    rw [hS]
    split
    · exact hbd a ha
    · exact (hbd a ha).trans (by omega)
  · rw [hS]; intro _; omega
  · rw [hS]; intro _; omega

theorem fcrLoop_inv :
    ∀ fuel text i st acc, FcrInv i st acc →
      (fcrLoop fuel text i st acc).Pairwise (fun a b => a.stop ≤ b.start) ∧
      ∀ r ∈ fcrLoop fuel text i st acc, r.start < r.stop := by
  intro fuel
  induction fuel with
  | zero => intro text i st acc h; exact ⟨h.pw, h.widths⟩
  | succ n ih =>
    intro text i st acc h
    cases text with
    | nil =>
      simp only [fcrLoop]
      cases hl : st.inLine with
      | true =>
        have hb : st.inBlock = false := by
          cases hbv : st.inBlock with
          | true => exact absurd ⟨hl, hbv⟩ h.excl
          | false => rfl
        have hbd : ∀ r ∈ acc, r.stop ≤ st.start := by
          intro r hr
          have := h.bound r hr
          unfold fcrBound at this
          rwa [hl, Bool.true_or, if_pos rfl] at this
        have hw : st.start < i := by have := h.lineStart hl; omega
        simp only [hb, Bool.false_eq_true, if_false, if_pos rfl, List.append_nil]
        constructor
        · exact pairwise_append_single acc ⟨st.start, i⟩ h.pw hbd
        · intro r hr
          rcases List.mem_append.mp hr with hr | hr
          · exact h.widths r hr
          · rcases List.mem_singleton.mp hr with rfl
            exact hw
      | false =>
        cases hbv : st.inBlock with
        | true =>
          have hbd : ∀ r ∈ acc, r.stop ≤ st.start := by
            intro r hr
            have := h.bound r hr
            unfold fcrBound at this
            rwa [hbv, Bool.or_true, if_pos rfl] at this
          have hw : st.start < i := by have := h.blockStart hbv; omega
          simp only [hl, Bool.false_eq_true, if_false, if_pos rfl, List.append_nil]
          constructor
          · exact pairwise_append_single acc ⟨st.start, i⟩ h.pw hbd
          · intro r hr
            rcases List.mem_append.mp hr with hr | hr
            · exact h.widths r hr
            · rcases List.mem_singleton.mp hr with rfl
              exact hw
        | false =>
          simp only [hl, hbv, Bool.false_eq_true, if_false, List.append_nil]
          exact ⟨h.pw, h.widths⟩
    | cons c rest =>
      simp only [fcrLoop]
      by_cases hs : st.inString.isSome
      · simp only [hs, if_true]
        by_cases he : st.escape
        · simp only [he, if_true]
          exact ih rest (i + 1) _ acc (h.stepKeep _ rfl rfl rfl)
        · simp only [he, Bool.false_eq_true, if_false]
          by_cases hbsl : c = '\\'
          · simp only [hbsl, if_pos rfl]
            exact ih rest (i + 1) _ acc (h.stepKeep _ rfl rfl rfl)
          · simp only [if_neg hbsl]
            by_cases hq : st.inString = some c
            · simp only [hq, if_pos rfl]
              exact ih rest (i + 1) _ acc (h.stepKeep _ rfl rfl rfl)
            · simp only [if_neg hq]
              exact ih rest (i + 1) _ acc (h.stepKeep _ rfl rfl rfl)
      · simp only [hs, Bool.false_eq_true, if_false]
        cases hl : st.inLine with
        | true =>
          simp only [if_true]
          have hb : st.inBlock = false := by
            cases hbv : st.inBlock with
            | true => exact absurd ⟨hl, hbv⟩ h.excl
            | false => rfl
          have hbd : ∀ r ∈ acc, r.stop ≤ st.start := by
            intro r hr
            have := h.bound r hr
            unfold fcrBound at this
            rwa [hl, Bool.true_or, if_pos rfl] at this
          by_cases hnl : c = '\n'
          · simp only [hnl, if_pos rfl]
            refine ih rest (i + 1) _ _ (h.close _ ⟨st.start, i⟩ (i + 1) hbd rfl ?_
              (by show i ≤ i + 1; omega) (by have := h.lineStart hl; omega) rfl hb)
            show st.start < i
            have := h.lineStart hl; omega
          · simp only [if_neg hnl]
            exact ih rest (i + 1) _ acc (h.stepKeep _ rfl rfl rfl)
        | false =>
          simp only [Bool.false_eq_true, if_false]
          cases hbv : st.inBlock with
          | true =>
            simp only [if_true]
            have hbd : ∀ r ∈ acc, r.stop ≤ st.start := by
              intro r hr
              have := h.bound r hr
              unfold fcrBound at this
              rwa [hbv, Bool.or_true, if_pos rfl] at this
            split
            · refine ih _ (i + 2) _ _ (h.close _ ⟨st.start, i + 2⟩ (i + 2) hbd rfl ?_
                (by show i + 2 ≤ i + 2; omega) (by have := h.blockStart hbv; omega) rfl rfl)
              show st.start < i + 2
              have := h.blockStart hbv; omega
            · exact ih rest (i + 1) _ acc (h.stepKeep _ rfl rfl rfl)
          | false =>
            simp only [Bool.false_eq_true, if_false]
            by_cases hq : isQuoteChar c
            · simp only [hq, if_true]
              exact ih rest (i + 1) _ acc (h.stepKeep _ (by simp [hl]) (by simp [hbv]) rfl)
            · simp only [hq, Bool.false_eq_true, if_false]
              split
              · exact ih _ (i + 2) _ acc
                  (h.openComment _ hl hbv rfl (by intro hh; simp [hl, hbv] at hh))
              · exact ih _ (i + 2) _ acc
                  (h.openComment _ hl hbv rfl (by intro hh; simp [hl, hbv] at hh))
              · exact ih rest (i + 1) _ acc (h.stepKeep _ rfl rfl rfl)

end HonoVscode
namespace HonoVscode

theorem countP_le_one_of_pairwise :
    ∀ l : List Range, l.Pairwise (fun a b => a.stop ≤ b.start) →
      ∀ pos : Nat, (l.countP fun r => r.start ≤ pos && pos < r.stop) ≤ 1 := by
  intro l hl pos
  induction l with
  | nil => simp
  | cons a l ih =>
    rw [List.pairwise_cons] at hl
    rw [List.countP_cons]
    by_cases ha : (decide (a.start ≤ pos) && decide (pos < a.stop)) = true
    · have h2 : a.start ≤ pos ∧ pos < a.stop := by
        have := ha
        simp only [Bool.and_eq_true, decide_eq_true_eq] at this
        exact this
      have hz : (l.countP fun r => r.start ≤ pos && pos < r.stop) = 0 := by
        rw [List.countP_eq_zero]
        intro b hb
        have hab := hl.1 b hb
        simp only [Bool.and_eq_true, decide_eq_true_eq, not_and]
        intro _
        omega
      simp [ha, hz]
    · simp only [ha, Bool.false_eq_true, if_false, cond_false]
      have := ih hl.2
      omega

/-- C9.  The comment ranges of any text are mutually non-overlapping half-open
intervals: they are ordered (each range ends no later than the next starts),
each is nonempty, and no position lies in two of them (every position is
counted by at most one range's point-in-range test). -/
theorem commentRanges_non_overlapping (text : List Char) :
    (findCommentRanges text).Pairwise (fun a b => a.stop ≤ b.start) ∧
    (∀ r ∈ findCommentRanges text, r.start < r.stop) ∧
    ∀ pos : Nat, ((findCommentRanges text).countP fun r => r.start ≤ pos && pos < r.stop) ≤ 1 := by
  have h := fcrLoop_inv (text.length + 1) text 0 ⟨false, false, none, false, 0⟩ []
    ⟨List.Pairwise.nil, by simp, by simp, by simp, by simp, by simp⟩
  exact ⟨h.1, h.2, fun pos => countP_le_one_of_pairwise _ h.1 pos⟩

end HonoVscode
namespace HonoVscode

/-! ## Claim C3: matching a single `app.get('/x', ...)` occurrence -/

theorem matchRouteCallAt_none_of_ge (text : List Char) (q : Nat)
    (h : text.length ≤ q) : matchRouteCallAt text q = none := by
  unfold matchRouteCallAt matchCharBoundary
  rw [List.drop_eq_nil_of_le h]
  simp [matchCore]

theorem matchCore_head (s : List Char) (cm : CoreMatch) (h : matchCore s = some cm) :
    ∃ c rest, s = c :: rest ∧ isIdentStartChar c = true := by
  cases s with
  | nil => exact absurd h (by simp [matchCore])
  | cons c rest =>
    refine ⟨c, rest, rfl, ?_⟩
    by_cases hc : isIdentStartChar c = true
    · exact hc
    · rw [matchCore, if_neg (by simp [hc])] at h
      exact absurd h (by simp)

theorem matchCore_len_pos (s : List Char) (cm : CoreMatch) (h : matchCore s = some cm) :
    0 < cm.len := by
  cases s with
  | nil => exact absurd h (by simp [matchCore])
  | cons c rest =>
    rw [matchCore] at h
    by_cases hc : isIdentStartChar c = true
    · rw [if_pos hc] at h
      simp only at h
      split at h
      · split at h
        · split at h
          · rw [Option.some_inj] at h
            subst h
            simp
          · exact absurd h (by simp)
        · exact absurd h (by simp)
      · exact absurd h (by simp)
    · rw [if_neg hc] at h
      exact absurd h (by simp)

theorem matchCharBoundary_len_pos (text : List Char) (p : Nat) (M : RouteCallMatch)
    (h : matchCharBoundary text p = some M) : 0 < M.len := by
  unfold matchCharBoundary at h
  split at h
  · exact absurd h (by simp)
  · split at h
    · split at h
      · rw [Option.some_inj] at h
        subst h
        simp
      · exact absurd h (by simp)
    · exact absurd h (by simp)

theorem matchRouteCallAt_len_pos (text : List Char) (p : Nat) (M : RouteCallMatch)
    (h : matchRouteCallAt text p = some M) : 0 < M.len := by
  unfold matchRouteCallAt at h
  split at h
  · split at h
    · rename_i cm hcm
      rw [Option.some_inj] at h
      subst h
      simpa using matchCore_len_pos _ _ hcm
    · exact matchCharBoundary_len_pos _ _ _ h
  · exact matchCharBoundary_len_pos _ _ _ h

theorem matchCharBoundary_receiver (text : List Char) (p : Nat) (M : RouteCallMatch)
    (h : matchCharBoundary text p = some M) :
    M.preLen = 1 ∧ ∃ c, (text.drop (p + 1)).head? = some c ∧ isIdentStartChar c = true := by
  unfold matchCharBoundary at h
  split at h
  · exact absurd h (by simp)
  · rename_i c rest hdrop
    split at h
    · split at h
      · rename_i cm hcm
        rw [Option.some_inj] at h
        subst h
        obtain ⟨c2, rest2, hrw, hb⟩ := matchCore_head rest cm hcm
        refine ⟨rfl, c2, ?_, hb⟩
        have hdd : text.drop (p + 1) = rest := by
          have h1 := congrArg (List.drop 1) hdrop
          simp only [List.drop_drop] at h1
          simpa [Nat.add_comm] using h1
        simp [hdd, hrw]
      · exact absurd h (by simp)
    · exact absurd h (by simp)

/-- The receiver identifier starts exactly at `p + preLen`: the character there
exists and is an identifier-start character (in particular it is never a
whitespace or newline character). -/
theorem matchRouteCallAt_receiver_start (text : List Char) (p : Nat) (M : RouteCallMatch)
    (h : matchRouteCallAt text p = some M) :
    ∃ c, (text.drop (p + M.preLen)).head? = some c ∧ isIdentStartChar c = true := by
  unfold matchRouteCallAt at h
  split at h
  · split at h
    · rename_i cm hcm
      rw [Option.some_inj] at h
      subst h
      obtain ⟨c, rest, hrw, hb⟩ := matchCore_head _ _ hcm
      exact ⟨c, by simp [hrw], hb⟩
    · obtain ⟨hpre, c, hc, hb⟩ := matchCharBoundary_receiver _ _ _ h
      rw [hpre]
      exact ⟨c, hc, hb⟩
  · obtain ⟨hpre, c, hc, hb⟩ := matchCharBoundary_receiver _ _ _ h
    rw [hpre]
    exact ⟨c, hc, hb⟩

theorem findMatchFrom_finds (text : List Char) (p : Nat) (M : RouteCallMatch)
    (hm : matchRouteCallAt text p = some M)
    (huniq : ∀ q, q ≠ p → matchRouteCallAt text q = none) :
    ∀ fuel pos, pos ≤ p → p < pos + fuel →
      findMatchFrom text pos fuel = some (p, M) := by
  intro fuel
  induction fuel with
  | zero => intro pos h1 h2; omega
  | succ n ih =>
    intro pos h1 h2
    have hplen : p < text.length := by
      by_contra hge
      push_neg at hge
      rw [matchRouteCallAt_none_of_ge text p hge] at hm
      exact Option.noConfusion hm
    rcases Nat.eq_or_lt_of_le h1 with rfl | hlt
    · rw [findMatchFrom, hm]
    · rw [findMatchFrom, huniq pos (by omega), if_pos (by omega)]
      exact ih (pos + 1) (by omega) (by omega)

theorem findMatchFrom_none_after (text : List Char) (p : Nat)
    (huniq : ∀ q, q ≠ p → matchRouteCallAt text q = none) :
    ∀ fuel pos, p < pos → findMatchFrom text pos fuel = none := by
  intro fuel
  induction fuel with
  | zero => intro pos _; rfl
  | succ n ih =>
    intro pos hlt
    rw [findMatchFrom, huniq pos (by omega)]
    show (if pos < text.length then findMatchFrom text (pos + 1) n else none) = none
    by_cases hlen : pos < text.length
    · rw [if_pos hlen]
      exact ih (pos + 1) (by omega)
    · rw [if_neg hlen]

/-- C3 (amended).  When the route-call regex matches at exactly one position
`p` of the text, the match there has method `get` and is followed by the path
literal `'/x'`, and the text has no comment ranges, the regex matcher (and the
full matcher when the structural strategy throws) returns exactly one
`ParsedRoute`, with method `"get"`, path `"/x"`, and `callStartIndex` equal to
`p` plus the prefix-capture length — the offset of the first character of the
receiver identifier, which is an identifier-start character and therefore
never a preceding whitespace or newline. -/
theorem single_app_get_route_output (text : List Char) (p : Nat) (M : RouteCallMatch)
    (hm : matchRouteCallAt text p = some M)
    (hmethod : M.method = "get")
    (hpath : matchPathLiteral (text.drop (p + M.len)) = some "/x")
    (huniq : ∀ q, q < text.length → q ≠ p → matchRouteCallAt text q = none)
    (hnc : findCommentRanges text = []) :
    parseRoutesWithRegex text none = [⟨"get", "/x", p + M.preLen⟩] ∧
    (∀ fuel, parseRoutesFromText (Except.error ()) fuel text none =
      [⟨"get", "/x", p + M.preLen⟩]) ∧
    ∃ c, (text.drop (p + M.preLen)).head? = some c ∧ isIdentStartChar c = true := by
  have huniq' : ∀ q, q ≠ p → matchRouteCallAt text q = none := by
    intro q hq
    by_cases h : q < text.length
    · exact huniq q h hq
    · push_neg at h
      exact matchRouteCallAt_none_of_ge text q h
  have hMpos : 0 < M.len := matchRouteCallAt_len_pos text p M hm
  have hfind1 : findMatchFrom text 0 (text.length + 1 - 0) = some (p, M) :=
    findMatchFrom_finds text p M hm huniq' (text.length + 1 - 0) 0 (by omega) (by
      have hplen : p < text.length := by
        by_contra hge
        push_neg at hge
        rw [matchRouteCallAt_none_of_ge text p hge] at hm
        exact Option.noConfusion hm
      omega)
  have hfind2 : findMatchFrom text (p + M.len) (text.length + 1 - (p + M.len)) = none :=
    findMatchFrom_none_after text p huniq' (text.length + 1 - (p + M.len)) (p + M.len)
      (by omega)
  have hcont : ∀ fuel, regexLoop text [] (p + M.len) fuel = [] := by
    intro fuel
    cases fuel with
    | zero => rfl
    | succ k => rw [regexLoop, hfind2]
  have hloop : regexLoop text [] 0 (text.length + 1) = [⟨"get", "/x", p + M.preLen⟩] := by
    rw [regexLoop, hfind1]
    simp only [hcont, hpath, hmethod]
    simp [(by decide : asciiLower "get" = "get")]
  have hregex : parseRoutesWithRegex text none = [⟨"get", "/x", p + M.preLen⟩] := by
    unfold parseRoutesWithRegex
    rw [if_neg (by simp), hnc]
    exact hloop
  exact ⟨hregex, fun fuel => hregex, matchRouteCallAt_receiver_start text p M hm⟩

theorem single_app_get_route_output_witness :
    parseRoutesWithRegex "app.get('/x', h)".toList none = [⟨"get", "/x", 0⟩] ∧
    parseRoutesFromText (Except.error ()) 1 "app.get('/x', h)".toList none =
      [⟨"get", "/x", 0⟩] := by
  have h := single_app_get_route_output "app.get('/x', h)".toList 0 ⟨0, 8, "get"⟩
    (by decide) (by decide) (by decide) (by decide) (by decide)
  exact ⟨h.1, (h.2.1) 1⟩

/-- C3 counterexample.  The text `"app.get('/x', h); app.post('/y', h)"`
contains exactly one occurrence of `app.get('/x', ...)` and no comments, yet
the matcher (both strategies, hence the combined matcher for the actual
outcome of the structural strategy on this text) returns two `ParsedRoute`s,
not exactly one. -/
theorem single_app_get_route_counterexample :
    parseRoutesWithRegex "app.get('/x', h); app.post('/y', h)".toList none =
      [⟨"get", "/x", 0⟩, ⟨"post", "/y", 18⟩] ∧
    parseRoutesWithAST 9
      (TsNode.node 0 [
        TsNode.node 0 [TsNode.callExpr 0 (TsNode.propAccess 0 (TsNode.ident 0 "app") "get")
          [TsNode.stringLit 8 "/x", TsNode.ident 14 "h"]],
        TsNode.node 18 [TsNode.callExpr 18 (TsNode.propAccess 18 (TsNode.ident 18 "app") "post")
          [TsNode.stringLit 27 "/y", TsNode.ident 33 "h"]]])
      "app.get('/x', h); app.post('/y', h)".toList none =
      [⟨"get", "/x", 0⟩, ⟨"post", "/y", 18⟩] ∧
    (parseRoutesFromText
      (Except.ok (TsNode.node 0 [
        TsNode.node 0 [TsNode.callExpr 0 (TsNode.propAccess 0 (TsNode.ident 0 "app") "get")
          [TsNode.stringLit 8 "/x", TsNode.ident 14 "h"]],
        TsNode.node 18 [TsNode.callExpr 18 (TsNode.propAccess 18 (TsNode.ident 18 "app") "post")
          [TsNode.stringLit 27 "/y", TsNode.ident 33 "h"]]]))
      9 "app.get('/x', h); app.post('/y', h)".toList none).length = 2 := by
  refine ⟨by decide, by decide, by decide⟩

end HonoVscode
namespace HonoVscode

/-! ## Claim C1: identifier resolution is a whole-file first-match search -/

theorem findSome?_append {α β : Type} (f : α → Option β) (l1 l2 : List α) :
    (l1 ++ l2).findSome? f = (l1.findSome? f <|> l2.findSome? f) := by
  induction l1 with
  | nil => simp
  | cons a l ih =>
    simp only [List.cons_append, List.findSome?_cons]
    cases f a <;> simp [ih]

mutual

/-- The declaration walk visits the tree in pre-order, and its result is the
first node (in pre-order) that is a matching declaration with a resolvable
initializer. -/
theorem walkWith_preorder (f : TsNode → Option String) (v : String) :
    ∀ n, walkWith f v n = (preorder n).findSome? (declWith f v)
  | .stringLit s t => by simp [walkWith, preorder, declWith, List.findSome?_cons]
  | .templateExpr s h spans => by
    rw [walkWith, preorder, List.findSome?_cons]
    simp only [declWith]
    exact walkSpans_preorder f v spans
  | .ident s n => by simp [walkWith, preorder, declWith, List.findSome?_cons]
  | .binaryPlus s l r => by
    rw [walkWith, preorder, List.findSome?_cons]
    simp only [declWith, findSome?_append, walkWith_preorder f v l, walkWith_preorder f v r]
  | .varDecl s b i => by
    rw [walkWith, preorder, List.findSome?_cons]
    have hd : declInitResolve f v b i = declWith f v (.varDecl s b i) := rfl
    rw [hd, findSome?_append, walkWith_preorder f v b, walkOpt_preorder f v i]
    cases declWith f v (.varDecl s b i) <;> simp
  | .callExpr s fn a => by
    rw [walkWith, preorder, List.findSome?_cons]
    simp only [declWith, findSome?_append, walkWith_preorder f v fn, walkList_preorder f v a]
  | .propAccess s r n => by
    rw [walkWith, preorder, List.findSome?_cons]
    simp only [declWith, walkWith_preorder f v r]
  | .node s cs => by
    rw [walkWith, preorder, List.findSome?_cons]
    simp only [declWith, walkList_preorder f v cs]

theorem walkList_preorder (f : TsNode → Option String) (v : String) :
    ∀ ns, walkList f v ns = (preorderList ns).findSome? (declWith f v)
  | [] => by simp [walkList, preorderList]
  | n :: ns => by
    rw [walkList, preorderList, findSome?_append, walkWith_preorder f v n,
      walkList_preorder f v ns]

theorem walkOpt_preorder (f : TsNode → Option String) (v : String) :
    ∀ i, walkOpt f v i = (preorderOpt i).findSome? (declWith f v)
  | none => by simp [walkOpt, preorderOpt]
  | some n => by rw [walkOpt, preorderOpt, walkWith_preorder f v n]

theorem walkSpans_preorder (f : TsNode → Option String) (v : String) :
    ∀ sps, walkSpans f v sps = (preorderSpans sps).findSome? (declWith f v)
  | [] => by simp [walkSpans, preorderSpans]
  | sp :: sps => by
    rw [walkSpans, preorderSpans, findSome?_append, walkWith_preorder f v sp.1,
      walkSpans_preorder f v sps]

end

mutual

/-- The route-emitting visit lists exactly the emissions of the pre-order
node sequence. -/
theorem visitWith_preorder (emit : TsNode → List ParsedRoute) :
    ∀ n, visitWith emit n = (preorder n).flatMap emit
  | .stringLit s t => by simp [visitWith, preorder]
  | .templateExpr s h spans => by
    rw [visitWith, preorder, List.flatMap_cons, visitSpansW_preorder emit spans]
  | .ident s n => by simp [visitWith, preorder]
  | .binaryPlus s l r => by
    rw [visitWith, preorder, List.flatMap_cons, List.flatMap_append,
      visitWith_preorder emit l, visitWith_preorder emit r]
  | .varDecl s b i => by
    rw [visitWith, preorder, List.flatMap_cons, List.flatMap_append,
      visitWith_preorder emit b, visitOptW_preorder emit i]
  | .callExpr s fn a => by
    rw [visitWith, preorder, List.flatMap_cons, List.flatMap_append,
      visitWith_preorder emit fn, visitListW_preorder emit a]
  | .propAccess s r n => by
    rw [visitWith, preorder, List.flatMap_cons, visitWith_preorder emit r]
  | .node s cs => by
    rw [visitWith, preorder, List.flatMap_cons, visitListW_preorder emit cs]

theorem visitListW_preorder (emit : TsNode → List ParsedRoute) :
    ∀ ns, visitListW emit ns = (preorderList ns).flatMap emit
  | [] => by simp [visitListW, preorderList]
  | n :: ns => by
    rw [visitListW, preorderList, List.flatMap_append, visitWith_preorder emit n,
      visitListW_preorder emit ns]

theorem visitOptW_preorder (emit : TsNode → List ParsedRoute) :
    ∀ i, visitOptW emit i = (preorderOpt i).flatMap emit
  | none => by simp [visitOptW, preorderOpt]
  | some n => by rw [visitOptW, preorderOpt, visitWith_preorder emit n]

theorem visitSpansW_preorder (emit : TsNode → List ParsedRoute) :
    ∀ sps, visitSpansW emit sps = (preorderSpans sps).flatMap emit
  | [] => by simp [visitSpansW, preorderSpans]
  | sp :: sps => by
    rw [visitSpansW, preorderSpans, List.flatMap_append, visitWith_preorder emit sp.1,
      visitSpansW_preorder emit sps]

end

/-- A node that is a variable declaration binding the identifier `v` with an
initializer present (regardless of where it occurs relative to the route
call). -/
def isVarDeclNamed (v : String) : TsNode → Bool
  | .varDecl _ (.ident _ nm) (some _) => nm = v
  | _ => false

theorem declWith_none_of_not_named (f : TsNode → Option String) (v : String) (d : TsNode)
    (h : isVarDeclNamed v d = false) : declWith f v d = none := by
  cases d with
  | varDecl s b i =>
    rw [declWith]
    cases b <;> cases i <;> try rfl
    case ident.some s2 nm ini =>
      rw [isVarDeclNamed] at h
      rw [declInitResolve]
      simp only [decide_eq_false_iff_not] at h
      rw [if_neg h]
  | _ => rfl

/-- C1 (amended).  A bare-identifier path argument is resolved by a whole-file
pre-order walk: the result is the first variable declaration, anywhere in the
source (before or after the call, at any nesting depth, `const` or not),
binding that identifier with a resolvable initializer; when no variable
declaration binding the identifier exists anywhere in the file, resolution
returns `none` for every recursion depth, and the matcher's output is exactly
the per-node emissions of the pre-order walk — a call whose path does not
resolve emits nothing and is dropped rather than emitted with a null path. -/
theorem identifier_resolution_whole_file (fuel : Nat) (sf : TsNode) (v : String) :
    (evaluateConstantString (fuel + 1) sf v =
      (preorder sf).findSome? (declWith (resolveRoutePathExpression fuel sf) v)) ∧
    ((∀ d ∈ preorder sf, isVarDeclNamed v d = false) →
      ∀ f2, evaluateConstantString f2 sf v = none) ∧
    ∀ text opts, parseRoutesWithAST (fuel + 1) sf text opts =
      (preorder sf).flatMap
        (emitRoute (resolveRoutePathExpression (fuel + 1) sf)
          (if opts = some false then [] else findCommentRanges text)) := by
  refine ⟨walkWith_preorder _ v sf, ?_, ?_⟩
  · intro hnone f2
    cases f2 with
    | zero => rfl
    | succ k =>
      rw [evaluateConstantString, walkWith_preorder _ v sf]
      rw [List.findSome?_eq_none]
      intro d hd
      exact declWith_none_of_not_named _ v d (hnone d hd)
  · intro text opts
    exact visitWith_preorder _ sf

theorem identifier_resolution_whole_file_witness :
    (∀ d ∈ preorder (TsNode.node 0
        [TsNode.node 0 [TsNode.callExpr 0 (TsNode.propAccess 0 (TsNode.ident 0 "app") "get")
          [TsNode.ident 8 "API_PATH"]]]),
      isVarDeclNamed "API_PATH" d = false) ∧
    evaluateConstantString 5 (TsNode.node 0
        [TsNode.node 0 [TsNode.callExpr 0 (TsNode.propAccess 0 (TsNode.ident 0 "app") "get")
          [TsNode.ident 8 "API_PATH"]]]) "API_PATH" = none :=
  ⟨by decide,
    (identifier_resolution_whole_file 4 _ "API_PATH").2.1 (by decide) 5⟩

/-- C1 counterexample.  In a source whose only `API_PATH` declaration comes
AFTER the route call (so no preceding declaration exists), the claim predicts
a null resolution and a dropped call; the code resolves the identifier to
`"/api"` and emits the route.  Moreover, with two declarations both preceding
the call, the first one in file order wins, not the nearest preceding one. -/
theorem identifier_resolution_counterexample :
    evaluateConstantString 9
      (TsNode.node 0 [
        TsNode.node 0 [TsNode.callExpr 0 (TsNode.propAccess 0 (TsNode.ident 0 "app") "get")
          [TsNode.ident 8 "API_PATH"]],
        TsNode.node 20 [TsNode.varDecl 26 (TsNode.ident 26 "API_PATH")
          (some (TsNode.stringLit 37 "/api"))]])
      "API_PATH" = some "/api" ∧
    parseRoutesWithAST 9
      (TsNode.node 0 [
        TsNode.node 0 [TsNode.callExpr 0 (TsNode.propAccess 0 (TsNode.ident 0 "app") "get")
          [TsNode.ident 8 "API_PATH"]],
        TsNode.node 20 [TsNode.varDecl 26 (TsNode.ident 26 "API_PATH")
          (some (TsNode.stringLit 37 "/api"))]])
      "x".toList none = [⟨"get", "/api", 0⟩] ∧
    evaluateConstantString 9
      (TsNode.node 0 [
        TsNode.node 0 [TsNode.varDecl 6 (TsNode.ident 6 "API_PATH")
          (some (TsNode.stringLit 17 "/a"))],
        TsNode.node 24 [TsNode.varDecl 30 (TsNode.ident 30 "API_PATH")
          (some (TsNode.stringLit 41 "/b"))],
        TsNode.node 48 [TsNode.callExpr 48 (TsNode.propAccess 48 (TsNode.ident 48 "app") "get")
          [TsNode.ident 56 "API_PATH"]]])
      "API_PATH" = some "/a" := by
  refine ⟨by decide, by decide, by decide⟩

end HonoVscode
namespace HonoVscode

/-! ## Claim C6: examples are paired with the first following route, filtered
by method equality -/

theorem mem_foldr_append {α β : Type} (f : α → List β) (bs : List α) (x : β)
    (h : x ∈ bs.foldr (fun b acc => f b ++ acc) []) : ∃ b ∈ bs, x ∈ f b := by
  induction bs with
  | nil => simp at h
  | cons b bs ih =>
    rcases List.mem_append.mp h with hx | hx
    · exact ⟨b, List.mem_cons_self b bs, hx⟩
    · obtain ⟨b', hb', hx'⟩ := ih hx
      exact ⟨b', List.mem_cons_of_mem b hb', hx'⟩

theorem mem_jsdocBlockExamples (text : List Char) (b : Nat × Nat) (ex : ParsedJSDocExample)
    (h : ex ∈ jsdocBlockExamples text b) :
    ex.routeMethod = ex.method ∧
    findFollowingRoute text b.2 = some (ex.routeMethod, ex.routePath) ∧
    ∃ e0 ∈ parseExamplesFromJSDoc (sliceChars text b.1 b.2) b.1,
      e0.method = ex.method ∧ e0.jsonBody = ex.jsonBody := by
  unfold jsdocBlockExamples at h
  simp only at h
  by_cases hlen : (parseExamplesFromJSDoc (sliceChars text b.1 b.2) b.1).length = 0
  · rw [if_pos hlen] at h
    simp at h
  · rw [if_neg hlen] at h
    cases hfind : findFollowingRoute text b.2 with
    | none => rw [hfind] at h; simp at h
    | some rmrp =>
      obtain ⟨rm, rp⟩ := rmrp
      rw [hfind] at h
      obtain ⟨e0, he0, hmap⟩ := List.mem_filterMap.mp h
      by_cases hme : e0.method = rm
      · rw [if_pos hme, Option.some_inj] at hmap
        subst hmap
        exact ⟨hme.symm, rfl, e0, he0, rfl, rfl⟩
      · rw [if_neg hme] at hmap
        exact absurd hmap (by simp)

/-- C6.  Every emitted documentation example is paired with the first
recognized route call appearing anywhere after its comment block (its
`routeMethod`/`routePath` are exactly `findFollowingRoute` at the block's
end), and it is emitted only if the example's method equals that route's
method; concretely, a `@example POST { "name": "John" }` block followed by
`app.post("/users", ...)` yields exactly one example with that body and route
path, the same block followed by `app.get(...)` yields zero examples, and a
block followed by no route yields zero examples. -/
theorem jsdoc_examples_paired_with_following_route :
    (∀ (text : List Char) (ex : ParsedJSDocExample), ex ∈ parseJSDocExamplesFromText text →
      ex.routeMethod = ex.method ∧
      ∃ b ∈ findJsDocBlocks text,
        findFollowingRoute text b.2 = some (ex.routeMethod, ex.routePath)) ∧
    parseJSDocExamplesFromText
      ("/**\n * @example\n * POST \x7b \"name\": \"John\" \x7d\n */\napp.post(\"/users\", (c) => c)".toList)
      = [⟨"post", "\x7b \"name\": \"John\" \x7d", 19, "/users", "post"⟩] ∧
    parseJSDocExamplesFromText
      ("/**\n * @example\n * POST \x7b \"name\": \"John\" \x7d\n */\napp.get(\"/users\", (c) => c)".toList)
      = [] ∧
    parseJSDocExamplesFromText
      ("/**\n * @example\n * POST \x7b \"name\": \"John\" \x7d\n */\nconst x = 1".toList)
      = [] := by
  refine ⟨?_, by decide, by decide, by decide⟩
  intro text ex hex
  unfold parseJSDocExamplesFromText at hex
  obtain ⟨b, hb, hx⟩ := mem_foldr_append (jsdocBlockExamples text) (findJsDocBlocks text) ex hex
  obtain ⟨hrm, hfind, _⟩ := mem_jsdocBlockExamples text b ex hx
  exact ⟨hrm, b, hb, hfind⟩

theorem jsdoc_examples_paired_witness :
    ∃ b ∈ findJsDocBlocks
      ("/**\n * @example\n * POST \x7b \"name\": \"John\" \x7d\n */\napp.post(\"/users\", (c) => c)".toList),
      findFollowingRoute
        ("/**\n * @example\n * POST \x7b \"name\": \"John\" \x7d\n */\napp.post(\"/users\", (c) => c)".toList)
        b.2 = some ("post", "/users") :=
  (jsdoc_examples_paired_with_following_route.1
    ("/**\n * @example\n * POST \x7b \"name\": \"John\" \x7d\n */\napp.post(\"/users\", (c) => c)".toList)
    ⟨"post", "\x7b \"name\": \"John\" \x7d", 19, "/users", "post"⟩ (by decide)).2

end HonoVscode
namespace HonoVscode

/-! ## Claim C7: unbalanced example payloads are dropped; extracted payloads
are brace-balanced -/

/-- Number of opening braces minus number of closing braces. -/
def braceDelta (l : List Char) : Int :=
  (l.count '\x7b' : Int) - l.count '\x7d'

theorem braceDelta_append_open (js : List Char) :
    braceDelta (js ++ ['\x7b']) = braceDelta js + 1 := by
  simp [braceDelta, List.count_append]
  omega

theorem braceDelta_append_close (js : List Char) :
    braceDelta (js ++ ['\x7d']) = braceDelta js - 1 := by
  simp [braceDelta, List.count_append]
  omega

theorem braceDelta_append_other (js : List Char) (c : Char)
    (h1 : ¬c = '\x7b') (h2 : ¬c = '\x7d') :
    braceDelta (js ++ [c]) = braceDelta js := by
  simp [braceDelta, List.count_append, List.count_singleton, h1, h2]

theorem jsonCharLoop_delta :
    ∀ content js br stt, braceDelta js = br →
      (match jsonCharLoop content js br stt with
       | Sum.inl (js1, br1, _) => braceDelta js1 = br1
       | Sum.inr jsonStr => braceDelta jsonStr = 0) := by
  intro content
  induction content with
  | nil => intro js br stt h; exact h
  | cons c rest ih =>
    intro js br stt h
    rw [jsonCharLoop]
    by_cases hopen : c = '\x7b'
    · rw [if_pos hopen]
      exact ih _ _ _ (by rw [hopen, braceDelta_append_open, h])
    · rw [if_neg hopen]
      by_cases hclose : c = '\x7d'
      · rw [if_pos hclose]
        by_cases hdone : (decide (br - 1 = 0) && stt) = true
        · rw [if_pos hdone]
          have h1 : br - 1 = 0 := by
            simp only [Bool.and_eq_true, decide_eq_true_eq] at hdone
            exact hdone.1
          subst hclose
          show braceDelta (js ++ ['\x7d']) = 0
          rw [braceDelta_append_close, h]
          exact h1
        · rw [if_neg hdone]
          exact ih _ _ _ (by rw [hclose, braceDelta_append_close, h])
      · rw [if_neg hclose]
        by_cases hst : stt = true
        · rw [if_pos hst]
          exact ih _ _ _ (by rw [braceDelta_append_other js c hopen hclose, h])
        · rw [if_neg hst]
          exact ih _ _ _ h

theorem count_dropWhile_space (c : Char) (hc : isJsSpace c = false) :
    ∀ l : List Char, (l.dropWhile isJsSpace).count c = l.count c := by
  intro l
  induction l with
  | nil => rfl
  | cons a t ih =>
    by_cases ha : isJsSpace a = true
    · rw [List.dropWhile_cons_of_pos ha, ih, List.count_cons]
      have : ¬a = c := by
        intro hac
        rw [hac, hc] at ha
        exact Bool.noConfusion ha
      simp [this]
    · rw [List.dropWhile_cons_of_neg (by simpa using ha)]

theorem braceDelta_jsTrim (l : List Char) : braceDelta (jsTrim l) = braceDelta l := by
  unfold jsTrim braceDelta
  rw [List.count_reverse, List.count_reverse,
    count_dropWhile_space _ (by decide), count_dropWhile_space _ (by decide),
    List.count_reverse, List.count_reverse,
    count_dropWhile_space _ (by decide), count_dropWhile_space _ (by decide)]

theorem jsonLineLoop_balanced (lines : List (List Char)) (startLineIndex : Nat) :
    ∀ fuel lineIdx content js br stt jr, braceDelta js = br →
      jsonLineLoop lines startLineIndex lineIdx content js br stt fuel = some jr →
      braceDelta jr.jsonBody.toList = 0 := by
  intro fuel
  induction fuel with
  | zero => intro _ _ _ _ _ _ _ h; exact absurd h (by simp [jsonLineLoop])
  | succ n ih =>
    intro lineIdx content js br stt jr hd h
    rw [jsonLineLoop] at h
    have hstep := jsonCharLoop_delta content js br stt hd
    cases hcl : jsonCharLoop content js br stt with
    | inr jsonStr =>
      rw [hcl] at h hstep
      rw [Option.some_inj] at h
      subst h
      show braceDelta (String.mk (jsTrim jsonStr)).toList = 0
      have : (String.mk (jsTrim jsonStr)).toList = jsTrim jsonStr := rfl
      rw [this, braceDelta_jsTrim]
      exact hstep
    | inl st1 =>
      obtain ⟨js1, br1, stt1⟩ := st1
      rw [hcl] at h hstep
      simp only at h
      split at h
      · exact absurd h (by simp)
      · split at h
        · refine ih (lineIdx + 1) _ _ _ _ jr ?_ h
          by_cases hnl : stt1 = true ∧ br1 > 0
          · have : (if stt1 && br1 > 0 then js1 ++ ['\n'] else js1) = js1 ++ ['\n'] := by
              rw [if_pos (by simp [hnl.1, hnl.2])]
            rw [this, braceDelta_append_other js1 '\n' (by decide) (by decide)]
            exact hstep
          · have : (if stt1 && br1 > 0 then js1 ++ ['\n'] else js1) = js1 := by
              rw [if_neg (by
                intro hcon
                simp only [Bool.and_eq_true, decide_eq_true_eq] at hcon
                exact hnl ⟨hcon.1, hcon.2⟩)]
            rw [this]
            exact hstep
        · exact absurd h (by simp)

theorem extractJsonBody_balanced (lines : List (List Char)) (li : Nat) (tr : List Char)
    (j : Nat) (jr : JsonExtract) (h : extractJsonBody lines li tr j = some jr) :
    braceDelta jr.jsonBody.toList = 0 := by
  unfold extractJsonBody at h
  split at h
  · exact jsonLineLoop_balanced lines li _ li _ [] 0 false jr (by rfl) h
  · exact absurd h (by simp)

theorem pexLoop_jsonBody (jsdocStartIndex : Nat) (lines : List (List Char)) :
    ∀ fuel i offset inEx e, e ∈ pexLoop jsdocStartIndex lines i offset inEx fuel →
      ∃ li tr j jr, extractJsonBody lines li tr j = some jr ∧ e.jsonBody = jr.jsonBody := by
  intro fuel
  induction fuel with
  | zero => intro _ _ _ _ h; exact absurd h (by simp [pexLoop])
  | succ n ih =>
    intro i offset inEx e h
    rw [pexLoop] at h
    by_cases hilen : i < lines.length
    · rw [if_pos hilen] at h
      simp only at h
      by_cases h1 : startsWithList "@example".toList (stripJSDocLineMarker (lines.getD i [])) = true
      · rw [if_pos h1] at h
        exact ih _ _ _ _ h
      · rw [if_neg h1] at h
        by_cases h2 : startsWithList ['@'] (stripJSDocLineMarker (lines.getD i [])) = true
        · rw [if_pos h2] at h
          exact ih _ _ _ _ h
        · rw [if_neg h2] at h
          by_cases h3 : inEx = true
          · rw [if_pos h3] at h
            cases hfind : findHttpMethodInLine (stripJSDocLineMarker (lines.getD i [])) with
            | none => rw [hfind] at h; exact ih _ _ _ _ h
            | some mm =>
              rw [hfind] at h
              simp only at h
              cases hext : extractJsonBody lines i (stripJSDocLineMarker (lines.getD i [])) mm.2 with
              | none => rw [hext] at h; exact ih _ _ _ _ h
              | some jr =>
                rw [hext] at h
                rcases List.mem_cons.mp h with rfl | hmem
                · exact ⟨i, _, mm.2, jr, hext, rfl⟩
                · exact ih _ _ _ _ hmem
          · rw [if_neg h3] at h
            exact ih _ _ _ _ h
    · rw [if_neg hilen] at h
      exact absurd h (by simp)

/-- C7.  A documentation example whose JSON payload never reaches brace
balance zero before its block ends contributes no `ParsedJSDocExample`
(truncated examples are silently dropped — extraction is total and simply
yields nothing), while balanced multi-line payloads are extracted across
decoration-stripped lines; every emitted example's `jsonBody` is
brace-balanced. -/
theorem unbalanced_examples_dropped :
    (∀ (text : List Char) (ex : ParsedJSDocExample), ex ∈ parseJSDocExamplesFromText text →
      braceDelta ex.jsonBody.toList = 0) ∧
    parseJSDocExamplesFromText
      ("/**\n * @example\n * POST \x7b \"a\": 1\n */\napp.post(\"/x\", (c) => c)".toList) = [] ∧
    parseJSDocExamplesFromText
      ("/**\n * @example\n * POST \x7b\n * \"a\": \x7b\"b\": 2\x7d\n * \x7d\n */\napp.post(\"/x\", (c) => c)".toList)
      = [⟨"post", "\x7b\n\"a\": \x7b\"b\": 2\x7d\n\x7d", 19, "/x", "post"⟩] := by
  refine ⟨?_, by decide, by decide⟩
  intro text ex hex
  unfold parseJSDocExamplesFromText at hex
  obtain ⟨b, _, hx⟩ := mem_foldr_append (jsdocBlockExamples text) (findJsDocBlocks text) ex hex
  obtain ⟨-, -, e0, he0, -, hbody⟩ := mem_jsdocBlockExamples text b ex hx
  unfold parseExamplesFromJSDoc at he0
  obtain ⟨li, tr, j, jr, hext, hjb⟩ := pexLoop_jsonBody b.1 _ _ _ _ _ _ he0
  rw [← hbody, hjb]
  exact extractJsonBody_balanced _ _ _ _ _ hext

theorem unbalanced_examples_dropped_witness :
    braceDelta
      (⟨"post", "\x7b\n\"a\": \x7b\"b\": 2\x7d\n\x7d", 19, "/x", "post"⟩ :
        ParsedJSDocExample).jsonBody.toList = 0 :=
  unbalanced_examples_dropped.1
    ("/**\n * @example\n * POST \x7b\n * \"a\": \x7b\"b\": 2\x7d\n * \x7d\n */\napp.post(\"/x\", (c) => c)".toList)
    ⟨"post", "\x7b\n\"a\": \x7b\"b\": 2\x7d\n\x7d", 19, "/x", "post"⟩ (by decide)

end HonoVscode
namespace HonoVscode

/-! ## Claim C5: path-parameter substitution

The claim asserts that `applyPathParams` replaces *every* occurrence of each
`:name` token with the percent-encoded value for that name.  That describes a
simultaneous substitution over the path's token structure, formalised by
`simSubst` below (built from the tokenisation that mirrors `PATH_PARAM_RE`).
The implementation instead performs one global textual replacement per name in
first-occurrence order, which differs from the simultaneous substitution when
one extracted name is a proper prefix of another (`/:a/:ab`). -/

/-- A path decomposes into literal chunks and `:name` tokens. -/
inductive Seg where
  | lit (cs : List Char)
  | tok (name : List Char)
deriving DecidableEq, Repr

/-- Tokenisation of a path along `PATH_PARAM_RE` matches: at `:` followed by
`[A-Za-z_]` the maximal `[A-Za-z_]\w*` run forms a token; all other characters
are literal.  Fueled like `scanTokensF`, whose token list it refines. -/
def tokenizeF : Nat → List Char → List Seg
  | 0, _ => []
  | _ + 1, [] => []
  | fuel + 1, c :: rest =>
    if c = ':' then
      match rest with
      | [] => [.lit [':']]
      | c2 :: rs =>
        if isAlphaUnd c2 then
          .tok (c2 :: rs.takeWhile isWordChar) ::
            tokenizeF fuel (rs.drop (rs.takeWhile isWordChar).length)
        else .lit [':'] :: tokenizeF fuel rest
    else .lit [c] :: tokenizeF fuel rest

/-- Tokenisation of a whole path. -/
def tokenize (p : List Char) : List Seg := tokenizeF (p.length + 1) p

/-- The text of one segment. -/
def renderSeg : Seg → List Char
  | .lit cs => cs
  | .tok n => ':' :: n

/-- The text of a segment list. -/
def render (segs : List Seg) : List Char := segs.flatMap renderSeg

/-- Substitution of one segment: a token becomes the percent-encoded value
for its name (empty when no value is provided); literals are unchanged. -/
def substSeg (values : String → Option String) : Seg → Seg
  | .lit cs => .lit cs
  | .tok n => .lit (encodeURIComponent ((values (String.mk n)).getD "").toList)

/-- Modelled from the spec: `substitute` "replaces every occurrence of each
`:name` token with the percent-encoded value (… repeated placeholders of the
same name all receive the same value); unprovided names substitute as empty
string" — i.e. the simultaneous substitution of every token of the path. -/
def simSubst (values : String → Option String) (p : List Char) : List Char :=
  render ((tokenize p).map (substSeg values))

/-- No `::x` with `x ∈ [A-Za-z_]` occurs in the path (no placeholder is
immediately preceded by a colon). -/
def noColonColonAlpha : List Char → Bool
  | [] => true
  | c0 :: rest =>
    (match rest with
     | c1 :: c2 :: _ => !(c0 = ':' && c1 = ':' && isAlphaUnd c2)
     | _ => true) && noColonColonAlpha rest

end HonoVscode

namespace HonoVscode

/-! ### Properties of `startsWithList` and `replaceAllSub` -/

/-- A matching pattern is no longer than the subject. -/
theorem startsWithList_length_le :
    ∀ pat l : List Char, startsWithList pat l = true → pat.length ≤ l.length := by
  intro pat
  induction pat with
  | nil => intro l _; exact Nat.zero_le _
  | cons p ps ih =>
    intro l h
    cases l with
    | nil => simp [startsWithList] at h
    | cons c cs =>
      simp only [startsWithList, Bool.and_eq_true] at h
      simpa [List.length_cons] using Nat.succ_le_succ (ih cs h.2)

/-- A list is a prefix of itself followed by anything. -/
theorem startsWithList_append_self :
    ∀ a b : List Char, startsWithList a (a ++ b) = true := by
  intro a b
  induction a with
  | nil => rfl
  | cons x xs ih => simp [startsWithList, ih]

/-- A prefix of `a ++ b` no longer than `a` is a prefix of `a`. -/
theorem startsWithList_prefix_left :
    ∀ p a b : List Char, startsWithList p (a ++ b) = true → p.length ≤ a.length →
      startsWithList p a = true := by
  intro p
  induction p with
  | nil => intro a b _ _; rfl
  | cons x xs ih =>
    intro a b h hlen
    cases a with
    | nil => simp at hlen
    | cons y ys =>
      simp only [List.cons_append, startsWithList, Bool.and_eq_true] at h ⊢
      exact ⟨h.1, ih ys b h.2 (Nat.le_of_succ_le_succ hlen)⟩

/-- If `p` extends a prefix of `a ++ b` past `a`, then `a` is a prefix of `p`. -/
theorem startsWithList_of_longer :
    ∀ a p b : List Char, startsWithList p (a ++ b) = true → a.length ≤ p.length →
      startsWithList a p = true := by
  intro a
  induction a with
  | nil => intro p b _ _; rfl
  | cons y ys ih =>
    intro p b h hlen
    cases p with
    | nil => simp at hlen
    | cons x xs =>
      simp only [List.cons_append, startsWithList, Bool.and_eq_true,
        decide_eq_true_eq] at h ⊢
      exact ⟨(h.1).symm, ih xs b h.2 (Nat.le_of_succ_le_succ hlen)⟩

/-- The fuel of `replaceAllSubF` is irrelevant once it exceeds the subject
length, provided the pattern is nonempty. -/
theorem replaceAllSubF_fuel (pat repl : List Char) (hp : pat ≠ []) :
    ∀ f1 f2 l, l.length < f1 → l.length < f2 →
      replaceAllSubF f1 pat repl l = replaceAllSubF f2 pat repl l := by
  intro f1
  induction f1 with
  | zero => intro f2 l h1 _; exact absurd h1 (Nat.not_lt_zero _)
  | succ f1 ih =>
    intro f2 l h1 h2
    cases l with
    | nil =>
      cases f2 with
      | zero => exact absurd h2 (Nat.not_lt_zero _)
      | succ f2 => rfl
    | cons c rest =>
      cases f2 with
      | zero => exact absurd h2 (Nat.not_lt_zero _)
      | succ f2 =>
        have hpl : 1 ≤ pat.length := by
          cases pat with
          | nil => exact absurd rfl hp
          | cons _ _ => exact Nat.succ_le_succ (Nat.zero_le _)
        by_cases hs : startsWithList pat (c :: rest) = true
        · have hdl : ((c :: rest).drop pat.length).length ≤ rest.length := by
            simp only [List.length_drop, List.length_cons]
            omega
          simp only [replaceAllSubF, hs, if_true]
          rw [ih f2 ((c :: rest).drop pat.length)
            (Nat.lt_of_le_of_lt hdl (Nat.lt_of_succ_lt_succ h1))
            (Nat.lt_of_le_of_lt hdl (Nat.lt_of_succ_lt_succ h2))]
        · have hs' : startsWithList pat (c :: rest) = false := by simpa using hs
          simp only [replaceAllSubF, hs', Bool.false_eq_true, if_false]
          rw [ih f2 rest (Nat.lt_of_succ_lt_succ h1) (Nat.lt_of_succ_lt_succ h2)]

/-- Unfolding `replaceAllSub` at a match position. -/
theorem replaceAllSub_cons_pos (pat repl : List Char) (c : Char) (rest : List Char)
    (hp : pat ≠ []) (h : startsWithList pat (c :: rest) = true) :
    replaceAllSub pat repl (c :: rest) =
      repl ++ replaceAllSub pat repl ((c :: rest).drop pat.length) := by
  have hpl : 1 ≤ pat.length := by
    cases pat with
    | nil => exact absurd rfl hp
    | cons _ _ => exact Nat.succ_le_succ (Nat.zero_le _)
  show replaceAllSubF ((c :: rest).length + 1) pat repl (c :: rest) = _
  simp only [List.length_cons, replaceAllSubF, h, if_true]
  rw [replaceAllSubF_fuel pat repl hp (rest.length + 1) (((c :: rest).drop pat.length).length + 1)
    ((c :: rest).drop pat.length)]
  · rfl
  · simp only [List.length_drop, List.length_cons]; omega
  · omega

/-- Unfolding `replaceAllSub` at a non-match position. -/
theorem replaceAllSub_cons_neg (pat repl : List Char) (c : Char) (rest : List Char)
    (h : startsWithList pat (c :: rest) = false) :
    replaceAllSub pat repl (c :: rest) = c :: replaceAllSub pat repl rest := by
  show replaceAllSubF ((c :: rest).length + 1) pat repl (c :: rest) = _
  simp only [List.length_cons, replaceAllSubF, h, Bool.false_eq_true, if_false]
  rfl

/-- Replacement of a `:`-pattern passes over a colon-free chunk unchanged. -/
theorem replaceAllSub_colon_chunk (n repl : List Char) :
    ∀ chunk t : List Char, (∀ c ∈ chunk, c ≠ ':') →
      replaceAllSub (':' :: n) repl (chunk ++ t) =
        chunk ++ replaceAllSub (':' :: n) repl t := by
  intro chunk
  induction chunk with
  | nil => intro t _; rfl
  | cons c ch ih =>
    intro t hch
    have hc : c ≠ ':' := hch c (List.mem_cons_self c ch)
    have hs : startsWithList (':' :: n) (c :: (ch ++ t)) = false := by
      simp [startsWithList, Ne.symm hc]
    rw [List.cons_append, replaceAllSub_cons_neg _ _ _ _ hs,
      ih t (fun x hx => hch x (List.mem_cons_of_mem c hx))]
    rfl

/-! ### `encodeURIComponent` never produces a colon -/

theorem toNat_ofNat_of_valid (n : Nat) (h : n.isValidChar) : (Char.ofNat n).toNat = n := by
  rw [Char.ofNat, dif_pos h]
  simp [Char.ofNatAux, Char.toNat, UInt32.toNat, BitVec.toNat_ofNatLt]

theorem toNat_ofNat_of_invalid (n : Nat) (h : ¬ n.isValidChar) : (Char.ofNat n).toNat = 0 := by
  rw [Char.ofNat, dif_neg h]
  simp [Char.toNat, UInt32.toNat, BitVec.toNat_ofNatLt]

/-- No hexadecimal digit character is a colon. -/
theorem hexDigit_ne_colon (n : Nat) : hexDigit n ≠ ':' := by
  intro h
  have h2 := congrArg Char.toNat h
  have hcolon : (':').toNat = 58 := by decide
  unfold hexDigit at h2
  have h0 : ('0').toNat = 48 := by decide
  have hA : ('A').toNat = 65 := by decide
  rw [h0, hA] at h2
  by_cases hn : n < 10
  · rw [if_pos hn, toNat_ofNat_of_valid, hcolon] at h2
    · omega
    · exact Or.inl (by omega)
  · rw [if_neg hn] at h2
    by_cases hv : (65 + n - 10).isValidChar
    · rw [toNat_ofNat_of_valid _ hv, hcolon] at h2
      omega
    · rw [toNat_ofNat_of_invalid _ hv, hcolon] at h2
      omega

/-- The characters of a percent-encoded byte sequence are `%` and hex digits. -/
theorem mem_percentEncodeChar (x : Char) (c : Char) (h : x ∈ percentEncodeChar c) :
    x = '%' ∨ ∃ k, x = hexDigit k := by
  unfold percentEncodeChar at h
  generalize utf8Bytes c.toNat = bs at h
  induction bs with
  | nil => simp [List.foldr] at h
  | cons b rest ih =>
    simp only [List.foldr, List.mem_cons] at h
    rcases h with h | h | h
    · exact Or.inl h
    · exact Or.inr ⟨b / 16, h⟩
    · rcases h with h | h
      · exact Or.inr ⟨b % 16, h⟩
      · exact ih h

/-- `encodeURIComponent` output never contains a colon. -/
theorem colon_not_mem_encodeURIComponent (s : List Char) :
    ':' ∉ encodeURIComponent s := by
  induction s with
  | nil => simp [encodeURIComponent]
  | cons c rest ih =>
    simp only [encodeURIComponent, List.mem_append]
    intro h
    rcases h with h | h
    · by_cases hu : isUriUnreserved c = true
      · rw [if_pos hu] at h
        simp only [List.mem_singleton] at h
        rw [← h] at hu
        simp [isUriUnreserved] at hu
      · rw [if_neg hu] at h
        rcases mem_percentEncodeChar _ _ h with h2 | ⟨k, h2⟩
        · exact absurd h2.symm (by decide)
        · exact hexDigit_ne_colon k h2.symm
    · exact ih h

end HonoVscode

namespace HonoVscode

/-! ### Well-formedness of the token decomposition -/

/-- Well-formed token name: `[A-Za-z_]\w*`. -/
def TokWF : List Char → Prop
  | [] => False
  | c :: tail => isAlphaUnd c = true ∧ ∀ x ∈ tail, isWordChar x = true

/-- What may follow a literal `:` that did not start a token: nothing, or a
literal chunk whose first character cannot start a parameter name. -/
def colonFollowOK : List Seg → Prop
  | [] => True
  | .lit (c :: _) :: _ => isAlphaUnd c = false
  | .lit [] :: _ => False
  | .tok _ :: _ => False

/-- Well-formed segment list: token names are well formed, and every literal
either contains no colon or is the single colon of a failed token start. -/
def SegsWF : List Seg → Prop
  | [] => True
  | .tok n :: rest => TokWF n ∧ SegsWF rest
  | .lit l :: rest => ((':' ∉ l) ∨ (l = [':'] ∧ colonFollowOK rest)) ∧ SegsWF rest

/-- The token names of a segment list, in order. -/
def tokNames (segs : List Seg) : List (List Char) :=
  segs.filterMap (fun s => match s with | .tok n => some n | .lit _ => none)

/-- One global-replace pass over a segment: the token named `n` becomes the
literal `repl`; everything else is unchanged. -/
def passSeg (repl n : List Char) : Seg → Seg
  | .tok m => if m = n then .lit repl else .tok m
  | .lit l => .lit l

theorem render_nil : render [] = [] := rfl

theorem render_cons (s : Seg) (rest : List Seg) :
    render (s :: rest) = renderSeg s ++ render rest := by
  simp [render]

theorem mem_takeWhile (f : Char → Bool) :
    ∀ (l : List Char) (x : Char), x ∈ List.takeWhile f l → f x = true := by
  intro l
  induction l with
  | nil => intro x h; simp [List.takeWhile] at h
  | cons c rest ih =>
    intro x h
    by_cases hc : f c = true
    · rw [List.takeWhile_cons, if_pos hc] at h
      rcases List.mem_cons.mp h with h | h
      · rw [h]; exact hc
      · exact ih x h
    · rw [List.takeWhile_cons, if_neg hc] at h
      simp at h

theorem drop_length_takeWhile (f : Char → Bool) :
    ∀ l : List Char, l.drop (l.takeWhile f).length = l.dropWhile f := by
  intro l
  induction l with
  | nil => rfl
  | cons c rest ih =>
    by_cases hc : f c = true
    · rw [List.takeWhile_cons, if_pos hc, List.dropWhile_cons, if_pos hc,
        List.length_cons, List.drop_succ_cons]
      exact ih
    · rw [List.takeWhile_cons, if_neg hc, List.dropWhile_cons, if_neg hc]
      rfl

/-- Rendering the tokenisation reproduces the path. -/
theorem render_tokenizeF :
    ∀ fuel p, p.length < fuel → render (tokenizeF fuel p) = p := by
  intro fuel
  induction fuel with
  | zero => intro p h; exact absurd h (Nat.not_lt_zero _)
  | succ fuel ih =>
    intro p h
    cases p with
    | nil => rfl
    | cons c rest =>
      by_cases hc : c = ':'
      · subst hc
        cases rest with
        | nil => rfl
        | cons c2 rs =>
          by_cases ha : isAlphaUnd c2 = true
          · simp only [tokenizeF, if_pos rfl, ha, if_true]
            rw [render_cons, ih]
            · show ':' :: c2 :: (rs.takeWhile isWordChar ++
                rs.drop (rs.takeWhile isWordChar).length) = _
              rw [drop_length_takeWhile, List.takeWhile_append_dropWhile]
            · simp only [List.length_drop, List.length_cons] at *
              omega
          · simp only [tokenizeF, if_pos rfl, if_true, ha, Bool.false_eq_true, if_false]
            rw [render_cons, ih]
            · rfl
            · simp only [List.length_cons] at *
              omega
      · simp only [tokenizeF, hc, if_false]
        rw [render_cons, ih]
        · rfl
        · simp only [List.length_cons] at h
          omega

theorem render_tokenize (p : List Char) : render (tokenize p) = p :=
  render_tokenizeF (p.length + 1) p (Nat.lt_succ_self _)

/-- Every token scanned by `PATH_PARAM_RE` is a well-formed name. -/
theorem scanTokensF_wf :
    ∀ fuel p n, n ∈ scanTokensF fuel p → TokWF n := by
  intro fuel
  induction fuel with
  | zero => intro p n h; simp [scanTokensF] at h
  | succ fuel ih =>
    intro p n h
    cases p with
    | nil => simp [scanTokensF] at h
    | cons c rest =>
      by_cases hc : c = ':'
      · subst hc
        cases rest with
        | nil => simp [scanTokensF] at h
        | cons c2 rs =>
          by_cases ha : isAlphaUnd c2 = true
          · simp only [scanTokensF, if_pos rfl, ha, if_true, List.mem_cons] at h
            rcases h with h | h
            · rw [h]
              exact ⟨ha, fun x hx => mem_takeWhile isWordChar rs x hx⟩
            · exact ih _ n h
          · simp only [scanTokensF, if_pos rfl, if_true, ha, Bool.false_eq_true, if_false] at h
            exact ih _ n h
      · simp only [scanTokensF, hc, if_false] at h
        exact ih _ n h

/-- The token names of the tokenisation are exactly the scanned tokens. -/
theorem tokNames_tokenizeF :
    ∀ fuel p, tokNames (tokenizeF fuel p) = scanTokensF fuel p := by
  intro fuel
  induction fuel with
  | zero => intro p; rfl
  | succ fuel ih =>
    intro p
    cases p with
    | nil => rfl
    | cons c rest =>
      by_cases hc : c = ':'
      · subst hc
        cases rest with
        | nil => rfl
        | cons c2 rs =>
          by_cases ha : isAlphaUnd c2 = true
          · simp only [tokenizeF, scanTokensF, if_pos rfl, ha, if_true]
            rw [← ih]
            rfl
          · simp only [tokenizeF, scanTokensF, if_pos rfl, if_true, ha, Bool.false_eq_true, if_false]
            rw [← ih]
            rfl
      · simp only [tokenizeF, scanTokensF, hc, if_false]
        rw [← ih]
        rfl

theorem noColonColonAlpha_tail (c : Char) (l : List Char)
    (h : noColonColonAlpha (c :: l) = true) : noColonColonAlpha l = true := by
  simp only [noColonColonAlpha, Bool.and_eq_true] at h
  exact h.2

theorem noColonColonAlpha_drop :
    ∀ k (l : List Char), noColonColonAlpha l = true → noColonColonAlpha (l.drop k) = true := by
  intro k
  induction k with
  | zero => intro l h; exact h
  | succ k ih =>
    intro l h
    cases l with
    | nil => exact h
    | cons c ls => exact ih ls (noColonColonAlpha_tail c ls h)

/-- Under the no-`::name` condition the tokenisation is well formed. -/
theorem tokenizeF_wf :
    ∀ fuel p, noColonColonAlpha p = true → SegsWF (tokenizeF fuel p) := by
  intro fuel
  induction fuel with
  | zero => intro p _; trivial
  | succ fuel ih =>
    intro p h
    cases p with
    | nil => trivial
    | cons c rest =>
      by_cases hc : c = ':'
      · subst hc
        cases rest with
        | nil =>
          show SegsWF [.lit [':']]
          exact ⟨Or.inr ⟨rfl, trivial⟩, trivial⟩
        | cons c2 rs =>
          by_cases ha : isAlphaUnd c2 = true
          · simp only [tokenizeF, if_pos rfl, ha, if_true]
            refine ⟨⟨ha, fun x hx => mem_takeWhile isWordChar rs x hx⟩, ?_⟩
            exact ih _ (noColonColonAlpha_drop _ rs
              (noColonColonAlpha_tail _ _ (noColonColonAlpha_tail _ _ h)))
          · simp only [tokenizeF, if_pos rfl, if_true, ha, Bool.false_eq_true, if_false]
            refine ⟨Or.inr ⟨rfl, ?_⟩, ih _ (noColonColonAlpha_tail _ _ h)⟩
            cases fuel with
            | zero => trivial
            | succ fuel2 =>
              by_cases hc2 : c2 = ':'
              · subst hc2
                cases rs with
                | nil => exact (by decide : isAlphaUnd ':' = false)
                | cons c3 rs2 =>
                  by_cases ha3 : isAlphaUnd c3 = true
                  · exfalso
                    simp [noColonColonAlpha, ha3] at h
                  · simp only [tokenizeF, if_pos rfl, ha3, Bool.false_eq_true, if_false]
                    exact (by decide : isAlphaUnd ':' = false)
              · simp only [tokenizeF, hc2, if_false]
                show isAlphaUnd c2 = false
                exact Bool.not_eq_true _ ▸ ha
      · simp only [tokenizeF, hc, if_false]
        refine ⟨Or.inl ?_, ih _ (noColonColonAlpha_tail _ _ h)⟩
        simp [Ne.symm hc]

theorem mem_dedupFirst :
    ∀ (l seen : List String) (a : String), a ∈ l → a ∉ seen → a ∈ dedupFirst l seen := by
  intro l
  induction l with
  | nil => intro seen a h _; simp at h
  | cons n ns ih =>
    intro seen a h ha
    by_cases hn : n ∈ seen
    · simp only [dedupFirst, if_pos hn]
      rcases List.mem_cons.mp h with h | h
      · exact absurd (h ▸ hn) ha
      · exact ih seen a h ha
    · simp only [dedupFirst, if_neg hn]
      rcases List.mem_cons.mp h with h | h
      · exact h ▸ List.mem_cons_self _ _
      · by_cases han : a = n
        · exact han ▸ List.mem_cons_self _ _
        · exact List.mem_cons_of_mem _ (ih (n :: seen) a h
            (fun hm => (List.mem_cons.mp hm).elim han ha))

theorem dedupFirst_subset :
    ∀ (l seen : List String) (a : String), a ∈ dedupFirst l seen → a ∈ l := by
  intro l
  induction l with
  | nil => intro seen a h; simp [dedupFirst] at h
  | cons n ns ih =>
    intro seen a h
    by_cases hn : n ∈ seen
    · simp only [dedupFirst, if_pos hn] at h
      exact List.mem_cons_of_mem _ (ih seen a h)
    · simp only [dedupFirst, if_neg hn] at h
      rcases List.mem_cons.mp h with h | h
      · exact h ▸ List.mem_cons_self _ _
      · exact List.mem_cons_of_mem _ (ih (n :: seen) a h)

/-- Every scanned token's name is among the extracted parameter names. -/
theorem scanTokens_mem_names (p n : List Char) (h : n ∈ scanTokens p) :
    String.mk n ∈ extractPathParamNames p :=
  mem_dedupFirst _ [] _ (List.mem_map_of_mem String.mk h) (List.not_mem_nil _)

/-- Every extracted parameter name is a well-formed token name. -/
theorem names_tokWF (p : List Char) (x : String) (h : x ∈ extractPathParamNames p) :
    TokWF x.toList := by
  have h2 := dedupFirst_subset _ [] _ h
  rcases List.mem_map.mp h2 with ⟨n, hn, he⟩
  have hx : x.toList = n := by rw [← he]; rfl
  rw [hx]
  exact scanTokensF_wf _ _ _ hn

end HonoVscode

namespace HonoVscode

theorem tokNames_cons_lit (l : List Char) (rest : List Seg) :
    tokNames (.lit l :: rest) = tokNames rest := rfl

theorem tokNames_cons_tok (t : List Char) (rest : List Seg) :
    tokNames (.tok t :: rest) = t :: tokNames rest := rfl

theorem mk_toList (l : List Char) : (String.mk l).toList = l := rfl

/-- A well-formed token name contains no colon. -/
theorem tokWF_no_colon : ∀ m : List Char, TokWF m → ∀ c ∈ m, c ≠ ':' := by
  intro m hm c hc he
  cases m with
  | nil => exact hm
  | cons c0 tail =>
    rcases List.mem_cons.mp hc with h | h
    · rw [he] at h
      rw [← h] at hm
      exact absurd hm.1 (by decide)
    · rw [he] at h
      exact absurd (hm.2 ':' h) (by decide)

/-- Token names survive a replacement pass. -/
theorem tokNames_map_passSeg (repl n : List Char) :
    ∀ segs m, m ∈ tokNames (segs.map (passSeg repl n)) → m ∈ tokNames segs := by
  intro segs
  induction segs with
  | nil => intro m h; exact h
  | cons s rest ih =>
    intro m h
    cases s with
    | lit l =>
      rw [List.map_cons] at h
      rw [tokNames_cons_lit]
      exact ih m h
    | tok t =>
      rw [List.map_cons] at h
      rw [tokNames_cons_tok]
      by_cases ht : t = n
      · simp only [passSeg, if_pos ht] at h
        rw [tokNames_cons_lit] at h
        exact List.mem_cons_of_mem _ (ih m h)
      · simp only [passSeg, if_neg ht] at h
        rw [tokNames_cons_tok] at h
        rcases List.mem_cons.mp h with h | h
        · exact h ▸ List.mem_cons_self _ _
        · exact List.mem_cons_of_mem _ (ih m h)

theorem colonFollowOK_map (repl n : List Char) :
    ∀ rest : List Seg, colonFollowOK rest → colonFollowOK (rest.map (passSeg repl n)) := by
  intro rest h
  cases rest with
  | nil => trivial
  | cons s r =>
    cases s with
    | lit l =>
      cases l with
      | nil => exact absurd h (by simp [colonFollowOK])
      | cons c cs => exact h
    | tok t => exact absurd h (by simp [colonFollowOK])

/-- Well-formedness of segments survives a replacement pass whose replacement
contains no colon. -/
theorem SegsWF_map_passSeg (repl n : List Char) (hr : ':' ∉ repl) :
    ∀ segs, SegsWF segs → SegsWF (segs.map (passSeg repl n)) := by
  intro segs
  induction segs with
  | nil => intro _; trivial
  | cons s rest ih =>
    intro hwf
    cases s with
    | tok t =>
      rw [List.map_cons]
      by_cases ht : t = n
      · simp only [passSeg, if_pos ht]
        exact ⟨Or.inl hr, ih hwf.2⟩
      · simp only [passSeg, if_neg ht]
        exact ⟨hwf.1, ih hwf.2⟩
    | lit l =>
      rw [List.map_cons]
      show SegsWF (.lit l :: rest.map (passSeg repl n))
      refine ⟨?_, ih hwf.2⟩
      rcases hwf.1 with hl | ⟨hl1, hl2⟩
      · exact Or.inl hl
      · exact Or.inr ⟨hl1, colonFollowOK_map repl n rest hl2⟩

/-- One global replacement of `:n` over the rendering acts segment-wise:
tokens named `n` become the replacement, everything else is untouched.
Needs: well-formed segments, all token names among `names`, `n` itself among
`names`, prefix-freeness of `names`, and a colon-free replacement. -/
theorem pass_render (n repl : List Char) (names : List String)
    (hPF : ∀ a ∈ names, ∀ b ∈ names, startsWithList a.toList b.toList = true → a = b)
    (hn : TokWF n) (hmem : String.mk n ∈ names) (hr : ':' ∉ repl) :
    ∀ segs, SegsWF segs → (∀ m, m ∈ tokNames segs → String.mk m ∈ names) →
      replaceAllSub (':' :: n) repl (render segs) =
        render (segs.map (passSeg repl n)) := by
  intro segs
  induction segs with
  | nil => intro _ _; rfl
  | cons s rest ih =>
    intro hwf hnames
    have hnames' : ∀ m, m ∈ tokNames rest → String.mk m ∈ names := by
      intro m hm
      cases s with
      | lit l => exact hnames m (by rw [tokNames_cons_lit]; exact hm)
      | tok t => exact hnames m (by rw [tokNames_cons_tok]; exact List.mem_cons_of_mem _ hm)
    cases s with
    | tok m =>
      have hTm : TokWF m := hwf.1
      have hrest : SegsWF rest := hwf.2
      have hmm : String.mk m ∈ names :=
        hnames m (by rw [tokNames_cons_tok]; exact List.mem_cons_self _ _)
      rw [render_cons, List.map_cons]
      show replaceAllSub (':' :: n) repl ((':' :: m) ++ render rest) = _
      rw [List.cons_append]
      by_cases hmn : m = n
      · subst hmn
        have hstart : startsWithList (':' :: m) (':' :: (m ++ render rest)) = true := by
          simp [startsWithList, startsWithList_append_self]
        rw [replaceAllSub_cons_pos _ _ _ _ (List.cons_ne_nil _ _) hstart]
        have hdrop : (':' :: (m ++ render rest)).drop (':' :: m).length = render rest := by
          rw [List.length_cons, List.drop_succ_cons, List.drop_left]
        rw [hdrop, ih hrest hnames']
        simp only [passSeg, if_pos rfl]
        rw [render_cons]
        rfl
      · have hsub : startsWithList n (m ++ render rest) = false := by
          by_contra hfalse
          have htrue : startsWithList n (m ++ render rest) = true :=
            Bool.not_eq_false _ ▸ hfalse
          rcases Nat.le_total n.length m.length with hle | hle
          · have hp := startsWithList_prefix_left n m (render rest) htrue hle
            have := hPF (String.mk n) hmem (String.mk m) hmm
              (by rw [mk_toList, mk_toList]; exact hp)
            have heq : n = m := by
              have := congrArg String.toList this
              rwa [mk_toList, mk_toList] at this
            exact hmn heq.symm
          · have hp := startsWithList_of_longer m n (render rest) htrue hle
            have := hPF (String.mk m) hmm (String.mk n) hmem
              (by rw [mk_toList, mk_toList]; exact hp)
            have heq : m = n := by
              have := congrArg String.toList this
              rwa [mk_toList, mk_toList] at this
            exact hmn heq
        have hstart : startsWithList (':' :: n) (':' :: (m ++ render rest)) = false := by
          simp [startsWithList, hsub]
        rw [replaceAllSub_cons_neg _ _ _ _ hstart,
          replaceAllSub_colon_chunk n repl m (render rest) (tokWF_no_colon m hTm),
          ih hrest hnames']
        simp only [passSeg, if_neg hmn]
        rw [render_cons]
        rfl
    | lit l =>
      have hrest : SegsWF rest := hwf.2
      rw [render_cons, List.map_cons]
      show replaceAllSub (':' :: n) repl (l ++ render rest) = _
      rcases hwf.1 with hl | ⟨hl1, hl2⟩
      · rw [replaceAllSub_colon_chunk n repl l (render rest)
          (fun c hc he => hl (he ▸ hc)), ih hrest hnames']
        simp only [passSeg]
        rw [render_cons]
        rfl
      · subst hl1
        have hne : n ≠ [] := by
          cases n with
          | nil => exact absurd hn (by simp [TokWF])
          | cons _ _ => exact List.cons_ne_nil _ _
        have hsub : startsWithList n (render rest) = false := by
          cases n with
          | nil => exact absurd rfl hne
          | cons n0 nt =>
            have hn0 : isAlphaUnd n0 = true := hn.1
            cases rest with
            | nil => rfl
            | cons s' r' =>
              cases s' with
              | tok t => exact absurd hl2 (by simp [colonFollowOK])
              | lit l' =>
                cases l' with
                | nil => exact absurd hl2 (by simp [colonFollowOK])
                | cons c cs =>
                  have hca : isAlphaUnd c = false := hl2
                  have hne0 : n0 ≠ c := by
                    intro he
                    rw [he, hca] at hn0
                    exact Bool.false_ne_true hn0
                  rw [render_cons]
                  show startsWithList (n0 :: nt) ((c :: cs) ++ render r') = false
                  rw [List.cons_append]
                  simp [startsWithList, hne0]
        have hstart : startsWithList (':' :: n) ([':'] ++ render rest) = false := by
          rw [List.singleton_append]
          simp [startsWithList, hsub]
        rw [List.singleton_append, replaceAllSub_cons_neg _ _ _ _
          (by rw [← List.singleton_append]; exact hstart), ih hrest hnames']
        simp only [passSeg]
        rw [render_cons]
        rfl

end HonoVscode

namespace HonoVscode

theorem toList_mk_eta (s : String) : String.mk s.toList = s := rfl

/-- A literal segment is unchanged by any sequence of passes. -/
theorem foldl_passSeg_lit (values : String → Option String) :
    ∀ (ns : List String) (l : List Char),
      ns.foldl (fun acc name =>
        passSeg (encodeURIComponent ((values name).getD "").toList) name.toList acc) (.lit l)
      = .lit l := by
  intro ns
  induction ns with
  | nil => intro l; rfl
  | cons n ns ih =>
    intro l
    rw [List.foldl_cons]
    show ns.foldl _ (passSeg _ n.toList (.lit l)) = _
    simp only [passSeg]
    exact ih l

/-- A token whose name occurs in the pass list ends as its encoded value. -/
theorem foldl_passSeg_tok (values : String → Option String) :
    ∀ (ns : List String) (m : List Char), String.mk m ∈ ns →
      ns.foldl (fun acc name =>
        passSeg (encodeURIComponent ((values name).getD "").toList) name.toList acc) (.tok m)
      = .lit (encodeURIComponent ((values (String.mk m)).getD "").toList) := by
  intro ns
  induction ns with
  | nil => intro m hm; simp at hm
  | cons n ns ih =>
    intro m hm
    rw [List.foldl_cons]
    by_cases hmn : m = n.toList
    · have hstep : passSeg (encodeURIComponent ((values n).getD "").toList) n.toList (Seg.tok m)
          = Seg.lit (encodeURIComponent ((values n).getD "").toList) := by
        simp only [passSeg]
        rw [if_pos hmn]
      show ns.foldl _ (passSeg _ n.toList (.tok m)) = _
      rw [hstep, foldl_passSeg_lit]
      have h2 : String.mk m = n := by rw [hmn, toList_mk_eta]
      rw [h2]
    · have hstep : passSeg (encodeURIComponent ((values n).getD "").toList) n.toList (Seg.tok m)
          = Seg.tok m := by
        simp only [passSeg]
        rw [if_neg hmn]
      show ns.foldl _ (passSeg _ n.toList (.tok m)) = _
      rw [hstep]
      refine ih m ?_
      rcases List.mem_cons.mp hm with h | h
      · exact absurd (by rw [← h]; rfl) hmn
      · exact h

/-- The per-name foldl of `applyPathParams` over a rendering acts segment-wise. -/
theorem fold_render (values : String → Option String) (names : List String)
    (hPF : ∀ a ∈ names, ∀ b ∈ names, startsWithList a.toList b.toList = true → a = b) :
    ∀ (ns : List String) (segs : List Seg),
      (∀ x ∈ ns, x ∈ names ∧ TokWF x.toList) →
      SegsWF segs → (∀ m, m ∈ tokNames segs → String.mk m ∈ names) →
      ns.foldl (fun resolved name =>
          replaceAllSub (':' :: name.toList)
            (encodeURIComponent ((values name).getD "").toList) resolved)
        (render segs)
      = render (segs.map (fun s => ns.foldl
          (fun acc name =>
            passSeg (encodeURIComponent ((values name).getD "").toList) name.toList acc) s)) := by
  intro ns
  induction ns with
  | nil =>
    intro segs _ _ _
    simp
  | cons n ns ih =>
    intro segs hns hwf hmem
    rw [List.foldl_cons]
    have hn := hns n (List.mem_cons_self _ _)
    have hmkn : String.mk n.toList ∈ names := by rw [toList_mk_eta]; exact hn.1
    rw [pass_render n.toList (encodeURIComponent ((values n).getD "").toList) names hPF
      hn.2 hmkn (colon_not_mem_encodeURIComponent _) segs hwf hmem]
    rw [ih (segs.map (passSeg (encodeURIComponent ((values n).getD "").toList) n.toList))
      (fun x hx => hns x (List.mem_cons_of_mem _ hx))
      (SegsWF_map_passSeg _ _ (colon_not_mem_encodeURIComponent _) segs hwf)
      (fun m hm => hmem m (tokNames_map_passSeg _ _ segs m hm))]
    rw [List.map_map]
    rfl

/-- A token of a segment list contributes its name to `tokNames`. -/
theorem tok_mem_tokNames (segs : List Seg) (m : List Char) (h : Seg.tok m ∈ segs) :
    m ∈ tokNames segs :=
  List.mem_filterMap.mpr ⟨Seg.tok m, h, rfl⟩

end HonoVscode

namespace HonoVscode

/-- C5 counterexample: with path `/:a/:ab` the extracted name `a` is a proper
prefix of `ab`; the per-name global replace performed by `applyPathParams`
substitutes the `a`-value into the `:ab` placeholder, yielding `/x/xb`, so the
`:ab` token does not receive its own value as the claim's reading of
"replaces every occurrence of each `:name` token with the percent-encoded
value for that name" requires (`/x/y`). -/
theorem path_substitution_counterexample :
    applyPathParams "/:a/:ab".toList
        (fun n => if n = "a" then some "x" else if n = "ab" then some "y" else none)
      = "/x/xb".toList ∧
    simSubst (fun n => if n = "a" then some "x" else if n = "ab" then some "y" else none)
        "/:a/:ab".toList
      = "/x/y".toList ∧
    applyPathParams "/:a/:ab".toList
        (fun n => if n = "a" then some "x" else if n = "ab" then some "y" else none)
      ≠ simSubst (fun n => if n = "a" then some "x" else if n = "ab" then some "y" else none)
        "/:a/:ab".toList :=
  ⟨by decide, by decide, by decide⟩

/-- C5 (amended): whenever no extracted parameter name is a proper prefix of
another and no placeholder is immediately preceded by an extra colon,
`applyPathParams` coincides with the simultaneous substitution `simSubst`
that replaces every `:name` token with the percent-encoded value for that
name (repeated placeholders of the same name all receive the same value,
unprovided names substitute as the empty string); and the spec's example
`substitute("/q/:term", [term = "a b"])` returns `/q/a%20b`. -/
theorem applyPathParams_replaces_every_token :
    (∀ (path : List Char) (values : String → Option String),
      (∀ a ∈ extractPathParamNames path, ∀ b ∈ extractPathParamNames path,
        startsWithList a.toList b.toList = true → a = b) →
      noColonColonAlpha path = true →
      applyPathParams path values = simSubst values path) ∧
    applyPathParams "/q/:term".toList
        (fun n => if n = "term" then some "a b" else none)
      = "/q/a%20b".toList := by
  constructor
  · intro path values hPF hCC
    have hfold := fold_render values (extractPathParamNames path) hPF
      (extractPathParamNames path) (tokenize path)
      (fun x hx => ⟨hx, names_tokWF path x hx⟩)
      (tokenizeF_wf _ _ hCC)
      (fun m hm => scanTokens_mem_names path m (by
        show m ∈ scanTokensF (path.length + 1) path
        rw [← tokNames_tokenizeF]
        exact hm))
    rw [render_tokenize] at hfold
    show (extractPathParamNames path).foldl _ path = _
    rw [hfold]
    show render _ = render ((tokenize path).map (substSeg values))
    refine congrArg render (List.map_congr_left ?_)
    intro s hs
    cases s with
    | lit l => exact foldl_passSeg_lit values _ l
    | tok m =>
      rw [foldl_passSeg_tok values _ m]
      · rfl
      · refine scanTokens_mem_names path m ?_
        show m ∈ scanTokensF (path.length + 1) path
        rw [← tokNames_tokenizeF]
        exact tok_mem_tokNames _ m hs
  · decide

/-- Witness: the amended theorem applied at `/u/:id/x/:id` (prefix-free
extracted names, a repeated placeholder) with `id = "a b"`, plus the spec's
concrete example. -/
theorem applyPathParams_replaces_every_token_witness :
    applyPathParams "/u/:id/x/:id".toList (fun n => if n = "id" then some "a b" else none)
      = simSubst (fun n => if n = "id" then some "a b" else none) "/u/:id/x/:id".toList ∧
    applyPathParams "/q/:term".toList (fun n => if n = "term" then some "a b" else none)
      = "/q/a%20b".toList :=
  ⟨applyPathParams_replaces_every_token.1 "/u/:id/x/:id".toList
      (fun n => if n = "id" then some "a b" else none) (by decide) (by decide),
    applyPathParams_replaces_every_token.2⟩

end HonoVscode

